import Mathlib

/-!
# SIL value graph: replace-all-uses-with and the strip traversals

A shallow embedding of `lib/SIL/SILValue.cpp`.  Values, operands and basic
blocks are addressed by handles (natural numbers) into the tables of a `Graph`.
The functions of `SILValue.cpp` are translated from the source; the parts of
the interface that live in headers outside the source tree (the use-list
linkage of `Operand`, the predecessor query of a block, the argument accessors
of the two branch terminators) are modelled from the specification and marked
as such.
-/

namespace SIL

/-- Handle of a value (a graph node); equality is identity. -/
abbrev SILValue := Nat

/-- Handle of a basic block. -/
abbrev BlockId := Nat

/-- Handle of an operand slot (a use edge). -/
abbrev OperandId := Nat

/-- Static type token; only compared for equality. -/
abbrev SILType := Nat

/-- The kinds of value that `SILValue.cpp` inspects, plus a catch-all for every
other instruction kind. -/
inductive ValueKind
  | SILArgument
  | SILUndef
  | UpcastInst
  | AddressToPointerInst
  | PointerToAddressInst
  | UncheckedRefCastInst
  | UncheckedAddrCastInst
  | RefToRawPointerInst
  | RawPointerToRefInst
  | UnconditionalCheckedCastInst
  | UncheckedRefBitCastInst
  | UncheckedTrivialBitCastInst
  | StructElementAddrInst
  | TupleElementAddrInst
  | RefElementAddrInst
  | StructExtractInst
  | TupleExtractInst
  | IndexAddrInst
  | IndexRawPointerInst
  | OtherInst (tag : Nat)
  deriving DecidableEq, Repr

/-- A use edge: the user holding the slot, the slot position, and the value
currently pointed at (`TheValue`). -/
structure Operand where
  owner : Nat
  index : Nat
  value : SILValue
  deriving DecidableEq, Repr

/-- The variants of a graph node: an instruction (kind, static type, owning
block, operand slots), a block argument (static type, owning block, position
among the block's arguments), or any other value (kind, static type). -/
inductive ValueBase
  | instruction (kind : ValueKind) (type : SILType) (parent : BlockId)
      (operands : List OperandId)
  | argument (type : SILType) (parent : BlockId) (index : Nat)
  | other (kind : ValueKind) (type : SILType)
  deriving DecidableEq, Repr

/-- Terminators: `br`, `cond_br`, and every other terminator kind.  Argument
lists are lists of operand slots. -/
inductive TermInst
  | BranchInst (dest : BlockId) (args : List OperandId)
  | CondBranchInst (cond : OperandId) (trueBB : BlockId) (trueArgs : List OperandId)
      (falseBB : BlockId) (falseArgs : List OperandId)
  | other (kind : ValueKind)
  deriving DecidableEq, Repr

/-- A basic block as far as the traversals see it: its predecessor list and its
terminator. -/
structure SILBasicBlock where
  preds : List BlockId
  terminator : TermInst
  deriving DecidableEq, Repr

/-- The value graph: the operand table (slots `0 .. numOperands - 1`), the use
list of every value, the node table and the block table. -/
structure Graph where
  numOperands : Nat
  operand : OperandId → Operand
  uses : SILValue → List OperandId
  node : SILValue → ValueBase
  block : BlockId → SILBasicBlock

/-- Result of running a loop of the source with a step budget: a value, a
failed run-time check (`assert`, `cast<>` on the wrong class, an index outside
an operand list), or an exhausted budget. -/
inductive Outcome (α : Type)
  | ok (v : α)
  | fault
  | timeout
  deriving DecidableEq, Repr

/-- `ValueBase::getKind`. -/
def ValueBase.getKind : ValueBase → ValueKind
  | .instruction k _ _ _ => k
  | .argument _ _ _ => .SILArgument
  | .other k _ => k

/-- `ValueBase::getType`. -/
def ValueBase.getType : ValueBase → SILType
  | .instruction _ t _ _ => t
  | .argument t _ _ => t
  | .other _ t => t

/-- `V->getKind()`. -/
def Graph.getKind (g : Graph) (V : SILValue) : ValueKind := (g.node V).getKind

/-- `V.getType()`. -/
def Graph.getType (g : Graph) (V : SILValue) : SILType := (g.node V).getType

/-- `Operand::get`: the value an operand slot points at. -/
def Graph.get (g : Graph) (op : OperandId) : SILValue := (g.operand op).value

/-! ## Use-edge management -/

/-- Modelled from the spec: `detach(operand)` of section 4.1 (`Operand` lives in
a header outside the source tree).  The operand is unlinked from the use list
of the value it currently points at. -/
def detach (g : Graph) (op : OperandId) : Graph :=
  { g with uses := fun u => if u = g.get op then (g.uses u).erase op else g.uses u }

/-- Insert `op` into a use list at position `k` (at the end when `k` exceeds the
length). -/
def insertAt (k : Nat) (op : OperandId) (l : List OperandId) : List OperandId :=
  l.take k ++ op :: l.drop k

/-- Modelled from the spec: `attach(operand, value)` of section 4.1.  The spec
leaves the position of the new entry unspecified, so the position is chosen by
an arbitrary policy `place` of the operand and the current list. -/
def attach (place : OperandId → List OperandId → Nat) (g : Graph) (op : OperandId)
    (v : SILValue) : Graph :=
  { g with uses := fun u =>
      if u = v then insertAt (place op (g.uses v)) op (g.uses v) else g.uses u }

/-- Assignment `operand.value = newValue`. -/
def assign (g : Graph) (op : OperandId) (newValue : SILValue) : Graph :=
  { g with operand := fun o =>
      if o = op then { g.operand op with value := newValue } else g.operand o }

/-- Modelled from the spec: `Operand.set(newValue)` of section 4.1: detach from
the current value, assign the value field, attach to the new value. -/
def Operand.set (place : OperandId → List OperandId → Nat) (g : Graph) (op : OperandId)
    (newValue : SILValue) : Graph :=
  attach place (assign (detach g op) op newValue) op newValue

/-! ## Replace-all-uses-with -/

/-- The drain loop of `replaceAllUsesWith`: `while (!use_empty())
(**use_begin()).set(V);`, with a budget of loop iterations.  `none` means the
budget ran out while the use list was still non-empty. -/
def drain (place : OperandId → List OperandId → Nat) :
    Nat → Graph → SILValue → SILValue → Option Graph
  | fuel, g, self, V =>
    match g.uses self with
    | [] => some g
    | op :: _ =>
      match fuel with
      | 0 => none
      | fuel + 1 => drain place fuel (Operand.set place g op V) self V

/-- How a call of `replaceAllUsesWith` ends. -/
inductive RAUWStatus
  | done
  | assertSelf
  | assertType
  | outOfFuel
  deriving DecidableEq, Repr

/-- `SILValue::replaceAllUsesWith`, state passing: the status and the graph the
call leaves behind.  The two `assert`s come first; a failed assertion stops the
call before the loop. -/
def replaceAllUsesWith (place : OperandId → List OperandId → Nat) (fuel : Nat) (g : Graph)
    (self V : SILValue) : RAUWStatus × Graph :=
  if self = V then (.assertSelf, g)
  else if g.getType self ≠ g.getType V then (.assertType, g)
  else
    match drain place fuel g self V with
    | some g' => (.done, g')
    | none => (.outOfFuel, g)

/-- The graph reached after `k` iterations of the drain loop of
`replaceAllUsesWith` (or at the exit of the loop, when it exits earlier). -/
def drainState (place : OperandId → List OperandId → Nat) :
    Nat → Graph → SILValue → SILValue → Graph
  | 0, g, _, _ => g
  | k + 1, g, self, V =>
    match g.uses self with
    | [] => g
    | op :: _ => drainState place k (Operand.set place g op V) self V

/-! ## The strip traversals -/

/-- `isRCIdentityPreservingCast`. -/
def isRCIdentityPreservingCast (Kind : ValueKind) : Bool :=
  match Kind with
  | .UpcastInst => true
  | .AddressToPointerInst => true
  | .PointerToAddressInst => true
  | .UncheckedRefCastInst => true
  | .UncheckedAddrCastInst => true
  | .RefToRawPointerInst => true
  | .RawPointerToRefInst => true
  | .UnconditionalCheckedCastInst => true
  | .UncheckedRefBitCastInst => true
  | _ => false

/-- Modelled from the spec: `Block.singlePredecessor()` of section 3 (the block
class lives in a header outside the source tree): the one predecessor when
there is exactly one, else none. -/
def getSinglePredecessor (g : Graph) (BB : BlockId) : Option BlockId :=
  match (g.block BB).preds with
  | [Pred] => some Pred
  | _ => none

/-- `Pred->getTerminator()`. -/
def getTerminator (g : Graph) (BB : BlockId) : TermInst := (g.block BB).terminator

/-- Modelled from the spec: `Branch.argumentAt(index)` of section 6: the value at
that position of the argument list; there is none outside the list. -/
def getArg (g : Graph) (args : List OperandId) (i : Nat) : Option SILValue :=
  (args[i]?).map g.get

/-- Modelled from the spec: `ConditionalBranch.argumentForDestination(block,
argumentIndex)` of sections 4.3 and 6: the entry at the argument's index of the
list of the destination that the block matches, the true destination first;
none when the block is neither destination or the index is outside the list. -/
def getArgForDestBB (g : Graph) (trueBB : BlockId) (trueArgs : List OperandId)
    (falseBB : BlockId) (falseArgs : List OperandId) (DestBB : BlockId) (i : Nat) :
    Option SILValue :=
  if DestBB = trueBB then (trueArgs[i]?).map g.get
  else if DestBB = falseBB then (falseArgs[i]?).map g.get
  else none

/-- `stripSinglePredecessorArgs`, with a budget of loop iterations. -/
def stripSinglePredecessorArgs (g : Graph) : Nat → SILValue → Outcome SILValue
  | 0, _ => .timeout
  | fuel + 1, V =>
    match g.node V with
    | .argument _ BB index =>
      match getSinglePredecessor g BB with
      | none => .ok V
      | some Pred =>
        match getTerminator g Pred with
        | .BranchInst _ args =>
          match getArg g args index with
          | some V' => stripSinglePredecessorArgs g fuel V'
          | none => .fault
        | .CondBranchInst _ trueBB trueArgs falseBB falseArgs =>
          match getArgForDestBB g trueBB trueArgs falseBB falseArgs BB index with
          | some Arg => stripSinglePredecessorArgs g fuel Arg
          | none => .ok V
        | .other _ => .ok V
    | _ => .ok V

/-- `cast<SILInstruction>(V.getDef())->getOperand(i)`: none when `V` is not an
instruction or has no operand `i`. -/
def getOperand (g : Graph) (V : SILValue) (i : Nat) : Option SILValue :=
  match g.node V with
  | .instruction _ _ _ operands => (operands[i]?).map g.get
  | _ => none

/-- `SILValue::stripCasts`, with a budget: it counts the iterations of the loop
and is also the budget handed to each call of `stripSinglePredecessorArgs`. -/
def stripCasts (g : Graph) : Nat → SILValue → Outcome SILValue
  | 0, _ => .timeout
  | fuel + 1, V =>
    match stripSinglePredecessorArgs g (fuel + 1) V with
    | .ok V =>
      let K := g.getKind V
      if isRCIdentityPreservingCast K || K == .UncheckedTrivialBitCastInst then
        match getOperand g V 0 with
        | some V' => stripCasts g fuel V'
        | none => .fault
      else .ok V
    | .fault => .fault
    | .timeout => .timeout

/-- `SILValue::stripAddressProjections`, with a budget as in `stripCasts`. -/
def stripAddressProjections (g : Graph) : Nat → SILValue → Outcome SILValue
  | 0, _ => .timeout
  | fuel + 1, V =>
    match stripSinglePredecessorArgs g (fuel + 1) V with
    | .ok V =>
      match g.getKind V with
      | .StructElementAddrInst | .TupleElementAddrInst | .RefElementAddrInst =>
        match getOperand g V 0 with
        | some V' => stripAddressProjections g fuel V'
        | none => .fault
      | _ => .ok V
    | .fault => .fault
    | .timeout => .timeout

/-- `SILValue::stripAggregateProjections`, with a budget as in `stripCasts`. -/
def stripAggregateProjections (g : Graph) : Nat → SILValue → Outcome SILValue
  | 0, _ => .timeout
  | fuel + 1, V =>
    match stripSinglePredecessorArgs g (fuel + 1) V with
    | .ok V =>
      match g.getKind V with
      | .StructExtractInst | .TupleExtractInst =>
        match getOperand g V 0 with
        | some V' => stripAggregateProjections g fuel V'
        | none => .fault
      | _ => .ok V
    | .fault => .fault
    | .timeout => .timeout

/-- Modelled from the spec: the "indexing" instruction kinds of section 3
(`IndexingInst` lives in a header outside the source tree). -/
def isIndexingInst (n : ValueBase) : Bool :=
  match n with
  | .instruction .IndexAddrInst _ _ _ => true
  | .instruction .IndexRawPointerInst _ _ _ => true
  | _ => false

/-- Modelled from the spec: the declared "base" operand of an indexing
instruction (section 4.7), its first operand. -/
def getBase (g : Graph) (V : SILValue) : Option SILValue := getOperand g V 0

/-- `SILValue::stripIndexingInsts`, with a budget of loop iterations. -/
def stripIndexingInsts (g : Graph) : Nat → SILValue → Outcome SILValue
  | 0, _ => .timeout
  | fuel + 1, V =>
    if !isIndexingInst (g.node V) then .ok V
    else
      match getBase g V with
      | some V' => stripIndexingInsts g fuel V'
      | none => .fault

/-- `ValueBase::getParentBB`. -/
def getParentBB (n : ValueBase) : Option BlockId :=
  match n with
  | .instruction _ _ parent _ => some parent
  | .argument _ parent _ => some parent
  | .other _ _ => none

/-! ## The use-list invariant -/

/-- The use-list invariant of section 3: every use list is duplicate free, holds
only operand slots of the graph that point at its value, and every operand slot
of the graph is in the use list of the value it points at. -/
def UseListInv (g : Graph) : Prop :=
  (∀ v, (g.uses v).Nodup) ∧
  (∀ v, ∀ o ∈ g.uses v, o < g.numOperands ∧ g.get o = v) ∧
  (∀ o, o < g.numOperands → o ∈ g.uses (g.get o))

/-- The list `Operand.set` inserts into: the target's use list once the operand
has been unlinked from its old value. -/
def detached (g : Graph) (op : OperandId) (w : SILValue) : List OperandId :=
  if w = g.get op then (g.uses w).erase op else g.uses w

/-- Attach at the head of the use list, as an intrusive list does. -/
def placeFront : OperandId → List OperandId → Nat := fun _ _ => 0

/-- Attach at the end of the use list. -/
def placeBack : OperandId → List OperandId → Nat := fun _ l => l.length

/-- A sample use graph: value 0 is used by operand slots 0 and 1, value 1 by
slot 2, value 2 by slot 3.  Values 0 and 1 have type 7, every other value type 8. -/
def useGraph : Graph where
  numOperands := 4
  operand := fun o =>
    if o = 0 then ⟨10, 0, 0⟩ else if o = 1 then ⟨10, 1, 0⟩
    else if o = 2 then ⟨11, 0, 1⟩ else ⟨12, 0, 2⟩
  uses := fun v =>
    if v = 0 then [0, 1] else if v = 1 then [2] else if v = 2 then [3] else []
  node := fun v => if v ≤ 1 then .other .SILUndef 7 else .other .SILUndef 8
  block := fun _ => ⟨[], .other .SILUndef⟩

/-- The kinds `stripCasts` steps past. -/
def isStrippedCast (K : ValueKind) : Bool :=
  isRCIdentityPreservingCast K || K == .UncheckedTrivialBitCastInst

/-- The kinds `stripAddressProjections` steps past. -/
def isAddressProjection (K : ValueKind) : Bool :=
  match K with
  | .StructElementAddrInst => true
  | .TupleElementAddrInst => true
  | .RefElementAddrInst => true
  | _ => false

/-- The kinds `stripAggregateProjections` steps past. -/
def isAggregateProjection (K : ValueKind) : Bool :=
  match K with
  | .StructExtractInst => true
  | .TupleExtractInst => true
  | _ => false

/-- The loop shape that `stripCasts`, `stripAddressProjections` and
`stripAggregateProjections` share: resolve block arguments, then step to
operand 0 while the kind is in the set `strips`. -/
def stripLoop (strips : ValueKind → Bool) (g : Graph) : Nat → SILValue → Outcome SILValue
  | 0, _ => .timeout
  | fuel + 1, V =>
    match stripSinglePredecessorArgs g (fuel + 1) V with
    | .ok V1 =>
      if strips (g.getKind V1) then
        match getOperand g V1 0 with
        | some V2 => stripLoop strips g fuel V2
        | none => .fault
      else .ok V1
    | .fault => .fault
    | .timeout => .timeout

/-- What one iteration of the loop of `stripSinglePredecessorArgs` does: leave
the loop with an outcome, or go round again with another value. -/
inductive LoopStep
  | leave (r : Outcome SILValue)
  | again (V : SILValue)
  deriving DecidableEq, Repr

/-- The body of the loop of `stripSinglePredecessorArgs`, as one step. -/
def argStep (g : Graph) (V : SILValue) : LoopStep :=
  match g.node V with
  | .argument _ BB index =>
    match getSinglePredecessor g BB with
    | none => .leave (.ok V)
    | some Pred =>
      match getTerminator g Pred with
      | .BranchInst _ args =>
        match getArg g args index with
        | some V' => .again V'
        | none => .leave .fault
      | .CondBranchInst _ trueBB trueArgs falseBB falseArgs =>
        match getArgForDestBB g trueBB trueArgs falseBB falseArgs BB index with
        | some Arg => .again Arg
        | none => .leave (.ok V)
      | .other _ => .leave (.ok V)
  | _ => .leave (.ok V)

/-- The value `v` is not resolved by `stripSinglePredecessorArgs`: the first
iteration of its loop returns `v` itself. -/
abbrev Unresolvable (g : Graph) (v : SILValue) : Prop :=
  stripSinglePredecessorArgs g 1 v = .ok v

/-- A sample control-flow graph.

* Block 0 ends in `br` to block 1 with arguments `[X, Y]` (values 0 and 1).
* Block 1 (only predecessor 0, arguments 10 and 11) ends in `cond_br` with true
  destination block 2 and arguments `[P, Q]` (values 2 and 3), false
  destination block 3 and arguments `[R]` (value 4).
* Blocks 2 (arguments 12, 13) and 3 (argument 14) have block 1 as their only
  predecessor; block 4 (argument 15) has the two predecessors 2 and 3.
* Block 5 (argument 16) has the only predecessor 6, which ends in another kind
  of terminator; block 7 (argument 17) lists block 1 as its only predecessor
  although it is no destination of its `cond_br`; block 8 (argument 18) has no
  predecessor.
* Value 20 is `upcast` of value 1 and value 21 is `address_to_pointer` of 20. -/
def cfgGraph : Graph where
  numOperands := 8
  operand := fun o =>
    match o with
    | 0 => ⟨100, 0, 0⟩
    | 1 => ⟨100, 1, 1⟩
    | 2 => ⟨101, 0, 5⟩
    | 3 => ⟨101, 1, 2⟩
    | 4 => ⟨101, 2, 3⟩
    | 5 => ⟨101, 3, 4⟩
    | 6 => ⟨20, 0, 1⟩
    | _ => ⟨21, 0, 20⟩
  uses := fun v =>
    match v with
    | 0 => [0]
    | 1 => [1, 6]
    | 2 => [3]
    | 3 => [4]
    | 4 => [5]
    | 5 => [2]
    | 20 => [7]
    | _ => []
  node := fun v =>
    match v with
    | 1 => .instruction (.OtherInst 0) 7 0 []
    | 3 => .instruction (.OtherInst 1) 7 1 []
    | 10 => .argument 7 1 0
    | 11 => .argument 7 1 1
    | 12 => .argument 7 2 0
    | 13 => .argument 7 2 1
    | 14 => .argument 7 3 0
    | 15 => .argument 7 4 0
    | 16 => .argument 7 5 0
    | 17 => .argument 7 7 0
    | 18 => .argument 7 8 0
    | 20 => .instruction .UpcastInst 8 0 [6]
    | 21 => .instruction .AddressToPointerInst 9 0 [7]
    | _ => .other .SILUndef 7
  block := fun b =>
    match b with
    | 0 => ⟨[], .BranchInst 1 [0, 1]⟩
    | 1 => ⟨[0], .CondBranchInst 2 2 [3, 4] 3 [5]⟩
    | 2 => ⟨[1], .other (.OtherInst 2)⟩
    | 3 => ⟨[1], .other (.OtherInst 2)⟩
    | 4 => ⟨[2, 3], .other (.OtherInst 2)⟩
    | 5 => ⟨[6], .other (.OtherInst 2)⟩
    | 7 => ⟨[1], .other (.OtherInst 2)⟩
    | _ => ⟨[], .other (.OtherInst 2)⟩

/-- The value `c` is an instruction whose kind is a
representation-identity-preserving cast and whose operand 0 is `x`. -/
def isCastOf (g : Graph) (c x : SILValue) : Bool :=
  match g.node c with
  | .instruction k _ _ _ => isRCIdentityPreservingCast k && getOperand g c 0 == some x
  | _ => false

/-- A finite chain of casts built on `x`, listed from the cast applied to `x`
up to the top of the chain: each entry is a cast of the one before it. -/
def castChain (g : Graph) : SILValue → List SILValue → Bool
  | _, [] => true
  | x, c :: cs => isCastOf g c x && castChain g c cs

/-- A second sample graph, for the projections, the indexing instructions and
argument lists that are too short.

* Value 1 is a plain instruction.  Value 22 is `unchecked_trivial_bit_cast` of
  value 1 and value 23 is `upcast` of value 22.
* Value 30 is `struct_element_addr` of value 1 and value 31 is
  `tuple_element_addr` of value 30; value 32 is `struct_extract` of value 1 and
  value 33 is `tuple_extract` of value 32.
* Value 40 is `index_addr` with base value 1.
* Block 0 ends in `br` to block 1 with the one argument value 40.  Block 1
  (only predecessor 0) has the arguments 10 (index 0) and 11 (index 1, outside
  the list of the `br`).
* Block 1 ends in `cond_br` with true destination block 2 and arguments
  `[30]`, false destination block 3 and no arguments.  Block 2 (only
  predecessor 1) has the arguments 12 (index 0) and 13 (index 1, outside the
  list); block 3 (only predecessor 1) has the argument 14 (index 0, outside
  the empty list). -/
def projGraph : Graph where
  numOperands := 11
  operand := fun o =>
    match o with
    | 0 => ⟨22, 0, 1⟩
    | 1 => ⟨23, 0, 22⟩
    | 2 => ⟨30, 0, 1⟩
    | 3 => ⟨31, 0, 30⟩
    | 4 => ⟨32, 0, 1⟩
    | 5 => ⟨33, 0, 32⟩
    | 6 => ⟨40, 0, 1⟩
    | 7 => ⟨40, 1, 1⟩
    | 8 => ⟨100, 0, 40⟩
    | 9 => ⟨101, 0, 1⟩
    | _ => ⟨101, 1, 30⟩
  uses := fun v =>
    match v with
    | 1 => [0, 2, 4, 6, 7, 9]
    | 22 => [1]
    | 30 => [3, 10]
    | 32 => [5]
    | 40 => [8]
    | _ => []
  node := fun v =>
    match v with
    | 1 => .instruction (.OtherInst 0) 7 0 []
    | 10 => .argument 7 1 0
    | 11 => .argument 7 1 1
    | 12 => .argument 7 2 0
    | 13 => .argument 7 2 1
    | 14 => .argument 7 3 0
    | 22 => .instruction .UncheckedTrivialBitCastInst 8 0 [0]
    | 23 => .instruction .UpcastInst 9 0 [1]
    | 30 => .instruction .StructElementAddrInst 7 0 [2]
    | 31 => .instruction .TupleElementAddrInst 7 0 [3]
    | 32 => .instruction .StructExtractInst 7 0 [4]
    | 33 => .instruction .TupleExtractInst 7 0 [5]
    | 40 => .instruction .IndexAddrInst 7 0 [6, 7]
    | _ => .other .SILUndef 7
  block := fun b =>
    match b with
    | 0 => ⟨[], .BranchInst 1 [8]⟩
    | 1 => ⟨[0], .CondBranchInst 9 2 [10] 3 []⟩
    | 2 => ⟨[1], .other (.OtherInst 2)⟩
    | 3 => ⟨[1], .other (.OtherInst 2)⟩
    | _ => ⟨[], .other (.OtherInst 2)⟩

/-! ## Control-flow graphs: reachability and dominance -/

/-- The operand slots a terminator passes to its destinations. -/
def termArgs : TermInst → List OperandId
  | .BranchInst _ args => args
  | .CondBranchInst _ _ trueArgs _ falseArgs => trueArgs ++ falseArgs
  | .other _ => []

/-- The list `B :: rest` walks predecessor edges from block `B` back to block
`entry`: each block is followed by one of its predecessors and the last block
is `entry`.  Read backwards it is a control-flow path from `entry` to `B`. -/
def backPath (g : Graph) : BlockId → List BlockId → BlockId → Bool
  | B, [], entry => B == entry
  | B, P :: rest, entry => decide (P ∈ (g.block B).preds) && backPath g P rest entry

/-- Block `B` is reachable from block `entry`. -/
def Reachable (g : Graph) (entry B : BlockId) : Prop :=
  ∃ rest, backPath g B rest entry = true

/-- Block `D` dominates block `B`: every control-flow path from `entry` to `B`
passes through `D`. -/
def Dominates (g : Graph) (entry D B : BlockId) : Prop :=
  ∀ rest, backPath g B rest entry = true → D ∈ B :: rest

/-- A connected control-flow graph with a unique entry block: the blocks are
`0 .. numBlocks - 1`, the entry block has no predecessors, every block is
reachable from the entry block, and every block argument belongs to a block of
the graph. -/
structure ConnectedCFG (g : Graph) (entry : BlockId) (numBlocks : Nat) : Prop where
  entry_lt : entry < numBlocks
  entry_no_pred : (g.block entry).preds = []
  reachable : ∀ B, B < numBlocks → Reachable g entry B
  args_in : ∀ v ty B i, g.node v = .argument ty B i → B < numBlocks

/-- Definitions dominate uses, for the values passed by terminators: a block
argument passed by the terminator of block `P` belongs to a block that
dominates `P`. -/
def ArgsDominate (g : Graph) (entry : BlockId) : Prop :=
  ∀ P op, op ∈ termArgs (getTerminator g P) →
    ∀ ty B i, g.node (g.get op) = .argument ty B i → Dominates g entry B P

/-- A connected control-flow graph whose value graph is not in SSA form: block 0
is the entry and ends in `br` to block 1; block 1 has the only predecessor 0
and the argument value 10; the `br` passes value 10, the argument of its own
destination. -/
def loopGraph : Graph where
  numOperands := 1
  operand := fun _ => ⟨100, 0, 10⟩
  uses := fun v => if v = 10 then [0] else []
  node := fun v => if v = 10 then .argument 7 1 0 else .other .SILUndef 7
  block := fun b =>
    if b = 0 then ⟨[], .BranchInst 1 [0]⟩
    else if b = 1 then ⟨[0], .other (.OtherInst 2)⟩
    else ⟨[], .other (.OtherInst 2)⟩

/-- A connected control-flow graph in SSA form: block 0 is the entry, has the
argument value 10 and ends in `br` to block 1 passing value 10; block 1 (only
predecessor 0) has the argument value 11 and ends in `br` to block 2 passing
values 11 and 10; block 2 (only predecessor 1) has the arguments 12 and 13. -/
def ssaGraph : Graph where
  numOperands := 3
  operand := fun o =>
    if o = 0 then ⟨100, 0, 10⟩ else if o = 1 then ⟨101, 0, 11⟩ else ⟨101, 1, 10⟩
  uses := fun v => if v = 10 then [0, 2] else if v = 11 then [1] else []
  node := fun v =>
    if v = 10 then .argument 7 0 0
    else if v = 11 then .argument 7 1 0
    else if v = 12 then .argument 7 2 0
    else if v = 13 then .argument 7 2 1
    else .other .SILUndef 7
  block := fun b =>
    if b = 0 then ⟨[], .BranchInst 1 [0]⟩
    else if b = 1 then ⟨[0], .BranchInst 2 [1, 2]⟩
    else if b = 2 then ⟨[1], .other (.OtherInst 2)⟩
    else ⟨[], .other (.OtherInst 2)⟩

/-! # Theorems -/

/-! ## Lemmas on `Operand.set` -/

theorem insertAt_perm (k : Nat) (op : OperandId) (l : List OperandId) :
    (insertAt k op l).Perm (op :: l) := by
  unfold insertAt
  have h : (l.take k ++ op :: l.drop k).Perm (op :: (l.take k ++ l.drop k)) :=
    List.perm_middle
  rwa [List.take_append_drop] at h

theorem set_numOperands (place : OperandId → List OperandId → Nat) (g : Graph)
    (op : OperandId) (w : SILValue) :
    (Operand.set place g op w).numOperands = g.numOperands := rfl

theorem set_node (place : OperandId → List OperandId → Nat) (g : Graph)
    (op : OperandId) (w : SILValue) :
    (Operand.set place g op w).node = g.node := rfl

theorem set_block (place : OperandId → List OperandId → Nat) (g : Graph)
    (op : OperandId) (w : SILValue) :
    (Operand.set place g op w).block = g.block := rfl

theorem set_operand (place : OperandId → List OperandId → Nat) (g : Graph)
    (op : OperandId) (w : SILValue) (o : OperandId) :
    (Operand.set place g op w).operand o =
      if o = op then { g.operand op with value := w } else g.operand o := rfl

theorem set_get (place : OperandId → List OperandId → Nat) (g : Graph)
    (op : OperandId) (w : SILValue) (o : OperandId) :
    (Operand.set place g op w).get o = if o = op then w else g.get o := by
  unfold Graph.get
  rw [set_operand]
  split <;> rfl

theorem set_uses (place : OperandId → List OperandId → Nat) (g : Graph)
    (op : OperandId) (w u : SILValue) :
    (Operand.set place g op w).uses u =
      if u = w then insertAt (place op (detached g op w)) op (detached g op w)
      else if u = g.get op then (g.uses u).erase op else g.uses u := rfl

theorem set_uses_perm (place : OperandId → List OperandId → Nat) (g : Graph)
    (op : OperandId) (w : SILValue) :
    ((Operand.set place g op w).uses w).Perm (op :: detached g op w) := by
  rw [set_uses, if_pos rfl]
  exact insertAt_perm _ _ _

theorem mem_detached (g : Graph) (hinv : UseListInv g) (op : OperandId) (w : SILValue)
    (o : OperandId) : o ∈ detached g op w ↔ o ∈ g.uses w ∧ o ≠ op := by
  unfold detached
  split
  · rw [(hinv.1 w).mem_erase_iff]
    tauto
  · next h =>
    constructor
    · intro ho
      refine ⟨ho, ?_⟩
      rintro rfl
      exact h ((hinv.2.1 w o ho).2).symm
    · exact fun ho => ho.1

theorem nodup_detached (g : Graph) (hinv : UseListInv g) (op : OperandId) (w : SILValue) :
    (detached g op w).Nodup := by
  unfold detached
  split
  · exact (hinv.1 w).erase op
  · exact hinv.1 w

theorem mem_set_uses (place : OperandId → List OperandId → Nat) (g : Graph)
    (hinv : UseListInv g) (op : OperandId) (w u : SILValue) (o : OperandId) :
    o ∈ (Operand.set place g op w).uses u ↔
      (u = w ∧ o = op) ∨ (o ∈ g.uses u ∧ o ≠ op) := by
  by_cases huw : u = w
  · subst huw
    rw [(set_uses_perm place g op u).mem_iff, List.mem_cons, mem_detached g hinv]
    tauto
  · rw [set_uses, if_neg huw]
    split
    · rw [(hinv.1 u).mem_erase_iff]
      tauto
    · next h =>
      constructor
      · intro ho
        refine Or.inr ⟨ho, ?_⟩
        rintro rfl
        exact h ((hinv.2.1 u o ho).2).symm
      · rintro (⟨h1, _⟩ | ⟨h1, _⟩)
        · exact absurd h1 huw
        · exact h1

/-- The invariant survives every `Operand.set` on an operand slot of the graph. -/
theorem set_preserves_inv (place : OperandId → List OperandId → Nat) (g : Graph)
    (hinv : UseListInv g) (op : OperandId) (hop : op < g.numOperands) (w : SILValue) :
    UseListInv (Operand.set place g op w) := by
  refine ⟨?_, ?_, ?_⟩
  · intro u
    by_cases huw : u = w
    · subst huw
      rw [(set_uses_perm place g op u).nodup_iff, List.nodup_cons]
      refine ⟨?_, nodup_detached g hinv op u⟩
      rw [mem_detached g hinv]
      tauto
    · rw [set_uses, if_neg huw]
      split
      · exact (hinv.1 u).erase op
      · exact hinv.1 u
  · intro u o ho
    rw [mem_set_uses place g hinv] at ho
    rw [set_numOperands, set_get]
    rcases ho with ⟨h1, h2⟩ | ⟨h1, h2⟩
    · subst h1 h2
      exact ⟨hop, if_pos rfl⟩
    · rw [if_neg h2]
      exact hinv.2.1 u o h1
  · intro o ho
    rw [set_numOperands] at ho
    rw [mem_set_uses place g hinv, set_get]
    by_cases h : o = op
    · left
      rw [if_pos h]
      exact ⟨rfl, h⟩
    · right
      rw [if_neg h]
      exact ⟨hinv.2.2 o ho, h⟩

/-! ## The drain loop -/

theorem drain_nil (place : OperandId → List OperandId → Nat) (fuel : Nat) (g : Graph)
    (v w : SILValue) (h : g.uses v = []) : drain place fuel g v w = some g := by
  unfold drain
  rw [h]

theorem drain_cons (place : OperandId → List OperandId → Nat) (fuel : Nat) (g : Graph)
    (v w : SILValue) (op : OperandId) (rest : List OperandId) (h : g.uses v = op :: rest) :
    drain place (fuel + 1) g v w = drain place fuel (Operand.set place g op w) v w := by
  rw [drain]
  rw [h]

theorem drain_zero_cons (place : OperandId → List OperandId → Nat) (g : Graph)
    (v w : SILValue) (op : OperandId) (rest : List OperandId) (h : g.uses v = op :: rest) :
    drain place 0 g v w = none := by
  unfold drain
  rw [h]

/-- One iteration of the drain loop removes the head of the drained list and
nothing else from it. -/
theorem set_head_uses (place : OperandId → List OperandId → Nat) (g : Graph)
    (hinv : UseListInv g) (v w : SILValue) (hvw : v ≠ w) (op : OperandId)
    (rest : List OperandId) (h : g.uses v = op :: rest) :
    (Operand.set place g op w).uses v = rest := by
  have hop : g.get op = v := (hinv.2.1 v op (by rw [h]; exact List.mem_cons_self _ _)).2
  rw [set_uses, if_neg hvw, hop, if_pos rfl, h]
  exact List.erase_cons_head op rest

/-- Everything the drain loop does, by induction on the drained use list. -/
theorem drain_spec (place : OperandId → List OperandId → Nat) (v w : SILValue) (hvw : v ≠ w) :
    ∀ (l : List OperandId) (g : Graph), UseListInv g → g.uses v = l →
      ∀ fuel, l.length ≤ fuel →
        ∃ g', drain place fuel g v w = some g' ∧ UseListInv g' ∧
          g'.numOperands = g.numOperands ∧ g'.node = g.node ∧ g'.block = g.block ∧
          g'.uses v = [] ∧ (g'.uses w).Perm (l ++ g.uses w) ∧
          (∀ u, u ≠ v → u ≠ w → g'.uses u = g.uses u) ∧
          (∀ o, g'.operand o =
            if o ∈ l then { g.operand o with value := w } else g.operand o) := by
  intro l
  induction l with
  | nil =>
    intro g hinv hl fuel _
    refine ⟨g, drain_nil place fuel g v w hl, hinv, rfl, rfl, rfl, hl, ?_, ?_, ?_⟩
    · simp
    · intro u _ _
      rfl
    · intro o
      simp
  | cons op rest ih =>
    intro g hinv hl fuel hfuel
    obtain ⟨f, rfl⟩ : ∃ f, fuel = f + 1 := by
      cases fuel with
      | zero => simp at hfuel
      | succ f => exact ⟨f, rfl⟩
    have hmem : op ∈ g.uses v := by rw [hl]; exact List.mem_cons_self _ _
    have hop := hinv.2.1 v op hmem
    have hinv1 := set_preserves_inv place g hinv op hop.1 w
    have hl1 := set_head_uses place g hinv v w hvw op rest hl
    have hlen : rest.length ≤ f := by
      simp only [List.length_cons] at hfuel
      omega
    obtain ⟨g', hd, hi, hn, hnode, hblock, hv, hw, hu, ho⟩ :=
      ih (Operand.set place g op w) hinv1 hl1 f hlen
    refine ⟨g', ?_, hi, ?_, ?_, ?_, hv, ?_, ?_, ?_⟩
    · rw [drain_cons place f g v w op rest hl]
      exact hd
    · rw [hn, set_numOperands]
    · rw [hnode, set_node]
    · rw [hblock, set_block]
    · have hdet : detached g op w = g.uses w := by
        unfold detached
        rw [if_neg]
        rw [hop.2]
        exact fun h => hvw h.symm
      have h1 : ((Operand.set place g op w).uses w).Perm (op :: g.uses w) := by
        have := set_uses_perm place g op w
        rwa [hdet] at this
      refine hw.trans ?_
      refine (List.Perm.append_left rest h1).trans ?_
      exact List.perm_middle
    · intro u huv huw
      rw [hu u huv huw, set_uses, if_neg huw, hop.2, if_neg huv]
    · intro o
      rw [ho o, set_operand]
      by_cases h1 : o = op
      · subst h1
        simp
      · by_cases h2 : o ∈ rest
        · simp [h1, h2]
        · simp [h1, h2]

/-- With a budget below the length of the drained list the loop does not finish. -/
theorem drain_short (place : OperandId → List OperandId → Nat) (v w : SILValue) (hvw : v ≠ w) :
    ∀ (l : List OperandId) (g : Graph), UseListInv g → g.uses v = l →
      ∀ fuel, fuel < l.length → drain place fuel g v w = none := by
  intro l
  induction l with
  | nil =>
    intro g _ _ fuel hfuel
    simp at hfuel
  | cons op rest ih =>
    intro g hinv hl fuel hfuel
    cases fuel with
    | zero => exact drain_zero_cons place g v w op rest hl
    | succ f =>
      have hmem : op ∈ g.uses v := by rw [hl]; exact List.mem_cons_self _ _
      have hop := hinv.2.1 v op hmem
      rw [drain_cons place f g v w op rest hl]
      apply ih _ (set_preserves_inv place g hinv op hop.1 w)
        (set_head_uses place g hinv v w hvw op rest hl)
      simp only [List.length_cons] at hfuel
      omega

theorem drainState_inv (place : OperandId → List OperandId → Nat) (v w : SILValue) :
    ∀ (k : Nat) (g : Graph), UseListInv g → UseListInv (drainState place k g v w) := by
  intro k
  induction k with
  | zero => exact fun g hinv => hinv
  | succ k ih =>
    intro g hinv
    unfold drainState
    split
    · exact hinv
    · next op rest h =>
      have hmem : op ∈ g.uses v := by rw [h]; exact List.mem_cons_self _ _
      exact ih _ (set_preserves_inv place g hinv op (hinv.2.1 v op hmem).1 w)

theorem drain_eq_drainState (place : OperandId → List OperandId → Nat) (v w : SILValue) :
    ∀ (fuel : Nat) (g g' : Graph), drain place fuel g v w = some g' →
      g' = drainState place fuel g v w := by
  intro fuel
  induction fuel with
  | zero =>
    intro g g' h
    unfold drain at h
    split at h
    · simpa [drainState] using h.symm
    · simp at h
  | succ f ih =>
    intro g g' h
    unfold drain at h
    unfold drainState
    split at h
    · exact (Option.some.inj h).symm
    · exact ih _ _ h

theorem useGraph_inv : UseListInv useGraph := by
  refine ⟨?_, ?_, ?_⟩
  · intro v
    simp only [useGraph]
    split_ifs <;> decide
  · intro v o ho
    simp only [useGraph, Graph.get] at ho ⊢
    split_ifs at ho <;> simp at ho <;> rcases ho with rfl | rfl <;> simp_all
  · intro o ho
    simp only [useGraph] at ho
    have : o = 0 ∨ o = 1 ∨ o = 2 ∨ o = 3 := by omega
    rcases this with rfl | rfl | rfl | rfl <;> decide

/-! ## Replace-all-uses-with: main results -/

/-- C1. RAUW postcondition: in a graph satisfying the use-list invariant, for
distinct values `v` and `w` of equal static type, `replaceAllUsesWith(v, w)`
completes (given a budget of at least the size of `v`'s use list) and
afterwards the use list of `v` is empty, every operand that was in `v`'s use
list has value `w` and is a member of `w`'s use list, and the size of `w`'s
use list is its size before the call plus the number of operands moved. -/
theorem rauw_postcondition (place : OperandId → List OperandId → Nat) (g : Graph)
    (hinv : UseListInv g) (v w : SILValue) (hvw : v ≠ w)
    (hty : g.getType v = g.getType w) (fuel : Nat) (hfuel : (g.uses v).length ≤ fuel) :
    (replaceAllUsesWith place fuel g v w).1 = RAUWStatus.done ∧
    (replaceAllUsesWith place fuel g v w).2.uses v = [] ∧
    (∀ o ∈ g.uses v, (replaceAllUsesWith place fuel g v w).2.get o = w ∧
      o ∈ (replaceAllUsesWith place fuel g v w).2.uses w) ∧
    ((replaceAllUsesWith place fuel g v w).2.uses w).length =
      (g.uses w).length + (g.uses v).length := by
  obtain ⟨g', hd, _, _, _, _, hv, hw, _, ho⟩ :=
    drain_spec place v w hvw (g.uses v) g hinv rfl fuel hfuel
  have hr : replaceAllUsesWith place fuel g v w = (RAUWStatus.done, g') := by
    unfold replaceAllUsesWith
    rw [if_neg hvw, if_neg (not_not.mpr hty), hd]
  rw [hr]
  refine ⟨rfl, hv, ?_, ?_⟩
  · intro o hmem
    constructor
    · show (g'.operand o).value = w
      rw [ho o, if_pos hmem]
    · rw [hw.mem_iff]
      exact List.mem_append_left _ hmem
  · show (g'.uses w).length = _
    rw [hw.length_eq, List.length_append]
    omega

/-- Witness for C1 on the sample graph: replacing value 0 by value 1. -/
theorem rauw_postcondition_witness :
    UseListInv useGraph ∧ (0 : SILValue) ≠ 1 ∧ useGraph.getType 0 = useGraph.getType 1 ∧
    (replaceAllUsesWith placeFront 2 useGraph 0 1).1 = RAUWStatus.done ∧
    (replaceAllUsesWith placeFront 2 useGraph 0 1).2.uses 0 = [] ∧
    (∀ o ∈ useGraph.uses 0, (replaceAllUsesWith placeFront 2 useGraph 0 1).2.get o = 1 ∧
      o ∈ (replaceAllUsesWith placeFront 2 useGraph 0 1).2.uses 1) ∧
    ((replaceAllUsesWith placeFront 2 useGraph 0 1).2.uses 1).length =
      (useGraph.uses 1).length + (useGraph.uses 0).length :=
  ⟨useGraph_inv, by decide, by decide,
    rauw_postcondition placeFront useGraph useGraph_inv 0 1 (by decide) (by decide) 2
      (by decide)⟩

/-- C2. Use-list invariant preservation: when the invariant holds before
`replaceAllUsesWith(v, w)` with `v` and `w` distinct and of equal static type,
the call completes and the invariant holds for every value afterwards; it also
holds after each iteration of the drain loop, and after any single
`Operand.set` on an operand slot of the graph. -/
theorem rauw_preserves_invariant (place : OperandId → List OperandId → Nat) (g : Graph)
    (hinv : UseListInv g) (v w : SILValue) (hvw : v ≠ w)
    (hty : g.getType v = g.getType w) (fuel : Nat) (hfuel : (g.uses v).length ≤ fuel) :
    (replaceAllUsesWith place fuel g v w).1 = RAUWStatus.done ∧
    UseListInv (replaceAllUsesWith place fuel g v w).2 ∧
    (∀ k, UseListInv (drainState place k g v w)) ∧
    (∀ op, op < g.numOperands → ∀ x, UseListInv (Operand.set place g op x)) := by
  obtain ⟨g', hd, hi, _⟩ := drain_spec place v w hvw (g.uses v) g hinv rfl fuel hfuel
  have hr : replaceAllUsesWith place fuel g v w = (RAUWStatus.done, g') := by
    unfold replaceAllUsesWith
    rw [if_neg hvw, if_neg (not_not.mpr hty), hd]
  rw [hr]
  exact ⟨rfl, hi, fun k => drainState_inv place v w k g hinv,
    fun op hop x => set_preserves_inv place g hinv op hop x⟩

/-- Witness for C2 on the sample graph, attaching at the end of the list. -/
theorem rauw_preserves_invariant_witness :
    UseListInv useGraph ∧
    (replaceAllUsesWith placeBack 5 useGraph 0 1).1 = RAUWStatus.done ∧
    UseListInv (replaceAllUsesWith placeBack 5 useGraph 0 1).2 ∧
    (∀ k, UseListInv (drainState placeBack k useGraph 0 1)) ∧
    (∀ op, op < useGraph.numOperands → ∀ x, UseListInv (Operand.set placeBack useGraph op x)) :=
  ⟨useGraph_inv,
    rauw_preserves_invariant placeBack useGraph useGraph_inv 0 1 (by decide) (by decide) 5
      (by decide)⟩

/-- C3. RAUW frame: for distinct equal-typed values `v` and `w` in a graph
satisfying the invariant, `replaceAllUsesWith(v, w)` leaves every operand that
did not point at `v` exactly as it was (value, owner and index), and leaves the
use list of every value other than `v` and `w` as it was. -/
theorem rauw_frame (place : OperandId → List OperandId → Nat) (g : Graph)
    (hinv : UseListInv g) (v w : SILValue) (hvw : v ≠ w)
    (hty : g.getType v = g.getType w) (fuel : Nat) (hfuel : (g.uses v).length ≤ fuel) :
    (∀ o, g.get o ≠ v → (replaceAllUsesWith place fuel g v w).2.operand o = g.operand o) ∧
    (∀ u, u ≠ v → u ≠ w → (replaceAllUsesWith place fuel g v w).2.uses u = g.uses u) := by
  obtain ⟨g', hd, _, _, _, _, _, _, hu, ho⟩ :=
    drain_spec place v w hvw (g.uses v) g hinv rfl fuel hfuel
  have hr : replaceAllUsesWith place fuel g v w = (RAUWStatus.done, g') := by
    unfold replaceAllUsesWith
    rw [if_neg hvw, if_neg (not_not.mpr hty), hd]
  rw [hr]
  refine ⟨?_, hu⟩
  intro o hne
  show g'.operand o = g.operand o
  rw [ho o, if_neg]
  exact fun hmem => hne (hinv.2.1 v o hmem).2

/-- Witness for C3 on the sample graph: operand slot 3 and value 2 are outside
the replacement of value 0 by value 1. -/
theorem rauw_frame_witness :
    UseListInv useGraph ∧
    (∀ o, useGraph.get o ≠ 0 →
      (replaceAllUsesWith placeFront 2 useGraph 0 1).2.operand o = useGraph.operand o) ∧
    (∀ u, u ≠ 0 → u ≠ 1 →
      (replaceAllUsesWith placeFront 2 useGraph 0 1).2.uses u = useGraph.uses u) :=
  ⟨useGraph_inv,
    rauw_frame placeFront useGraph useGraph_inv 0 1 (by decide) (by decide) 2 (by decide)⟩

/-- C4. RAUW precondition enforcement: `replaceAllUsesWith(v, w)` stops at one of
its two assertions exactly when `v` and `w` are the same value or their static
types differ, and then the graph it leaves is the graph it was given; it gets
past both assertions exactly when `v` differs from `w` and the static types
are equal. -/
theorem rauw_precondition (place : OperandId → List OperandId → Nat) (fuel : Nat)
    (g : Graph) (v w : SILValue) :
    (((replaceAllUsesWith place fuel g v w).1 = RAUWStatus.assertSelf ∨
        (replaceAllUsesWith place fuel g v w).1 = RAUWStatus.assertType) ↔
      (v = w ∨ g.getType v ≠ g.getType w)) ∧
    ((v = w ∨ g.getType v ≠ g.getType w) → (replaceAllUsesWith place fuel g v w).2 = g) ∧
    (((replaceAllUsesWith place fuel g v w).1 ≠ RAUWStatus.assertSelf ∧
        (replaceAllUsesWith place fuel g v w).1 ≠ RAUWStatus.assertType) ↔
      (v ≠ w ∧ g.getType v = g.getType w)) := by
  unfold replaceAllUsesWith
  by_cases hvw : v = w
  · simp [hvw]
  · by_cases hty : g.getType v = g.getType w
    · simp only [if_neg hvw, hty, ne_eq, not_true_eq_false, if_false]
      cases drain place fuel g v w <;> simp [hvw]
    · simp [hvw, hty]

/-! ## Lemmas on `stripSinglePredecessorArgs` -/

theorem strip_zero (g : Graph) (V : SILValue) :
    stripSinglePredecessorArgs g 0 V = .timeout := rfl

theorem strip_succ (g : Graph) (n : Nat) (V : SILValue) :
    stripSinglePredecessorArgs g (n + 1) V =
      match argStep g V with
      | .leave r => r
      | .again V' => stripSinglePredecessorArgs g n V' := by
  rw [stripSinglePredecessorArgs]
  unfold argStep
  repeat' split
  all_goals first | rfl | simp_all

/-- An iteration that leaves the loop with a value leaves it with the value it
was looking at. -/
theorem argStep_leave_ok (g : Graph) (V r : SILValue)
    (h : argStep g V = .leave (.ok r)) : r = V := by
  unfold argStep at h
  repeat' split at h
  all_goals simp_all

theorem unresolvable_iff (g : Graph) (v : SILValue) :
    Unresolvable g v ↔ argStep g v = .leave (.ok v) := by
  unfold Unresolvable
  rw [strip_succ]
  cases h : argStep g v with
  | leave r => simp
  | again V' => simp [strip_zero]

/-- An unresolvable value is returned whatever the budget. -/
theorem strip_unresolvable (g : Graph) (v : SILValue) (h : Unresolvable g v) (n : Nat) :
    stripSinglePredecessorArgs g (n + 1) v = .ok v := by
  rw [unresolvable_iff] at h
  rw [strip_succ, h]

/-- A larger budget does not change a value already returned. -/
theorem strip_mono (g : Graph) :
    ∀ (n : Nat) (v r : SILValue), stripSinglePredecessorArgs g n v = .ok r →
      ∀ m, n ≤ m → stripSinglePredecessorArgs g m v = .ok r := by
  intro n
  induction n with
  | zero =>
    intro v r h
    simp [strip_zero] at h
  | succ n ih =>
    intro v r h m hm
    obtain ⟨k, rfl⟩ : ∃ k, m = k + 1 := ⟨m - 1, by omega⟩
    rw [strip_succ] at h ⊢
    cases hs : argStep g v with
    | leave o =>
      rw [hs] at h
      exact h
    | again V' =>
      rw [hs] at h
      exact ih V' r h k (by omega)

/-- The value returned by `stripSinglePredecessorArgs` is not resolvable further. -/
theorem strip_result_unresolvable (g : Graph) :
    ∀ (n : Nat) (v r : SILValue), stripSinglePredecessorArgs g n v = .ok r →
      Unresolvable g r := by
  intro n
  induction n with
  | zero =>
    intro v r h
    simp [strip_zero] at h
  | succ n ih =>
    intro v r h
    rw [strip_succ] at h
    cases hs : argStep g v with
    | leave o =>
      rw [hs] at h
      simp only at h
      subst h
      have := argStep_leave_ok g v r hs
      subst this
      exact (unresolvable_iff g r).mpr hs
    | again V' =>
      rw [hs] at h
      exact ih V' r h

/-! ## Lemmas on the strip loops -/

theorem stripLoop_zero (strips : ValueKind → Bool) (g : Graph) (V : SILValue) :
    stripLoop strips g 0 V = .timeout := rfl

theorem stripLoop_succ (strips : ValueKind → Bool) (g : Graph) (n : Nat) (V : SILValue) :
    stripLoop strips g (n + 1) V =
      match stripSinglePredecessorArgs g (n + 1) V with
      | .ok V1 =>
        if strips (g.getKind V1) then
          match getOperand g V1 0 with
          | some V2 => stripLoop strips g n V2
          | none => .fault
        else .ok V1
      | .fault => .fault
      | .timeout => .timeout := by
  rw [stripLoop]

/-- A value that is unresolvable and whose kind is not stripped is returned. -/
theorem stripLoop_stop (strips : ValueKind → Bool) (g : Graph) (v : SILValue)
    (hu : Unresolvable g v) (hk : strips (g.getKind v) = false) (n : Nat) :
    stripLoop strips g (n + 1) v = .ok v := by
  rw [stripLoop_succ, strip_unresolvable g v hu n]
  simp [hk]

/-- Stepping past an unresolvable value of a stripped kind. -/
theorem stripLoop_step (strips : ValueKind → Bool) (g : Graph) (c x : SILValue)
    (hu : Unresolvable g c) (hk : strips (g.getKind c) = true)
    (hop : getOperand g c 0 = some x) (n : Nat) :
    stripLoop strips g (n + 1) c = stripLoop strips g n x := by
  rw [stripLoop_succ, strip_unresolvable g c hu n]
  simp [hk, hop]

/-- The value returned by a strip loop is unresolvable and its kind is not in
the stripped set. -/
theorem stripLoop_normal (strips : ValueKind → Bool) (g : Graph) :
    ∀ (n : Nat) (v r : SILValue), stripLoop strips g n v = .ok r →
      Unresolvable g r ∧ strips (g.getKind r) = false := by
  intro n
  induction n with
  | zero =>
    intro v r h
    simp [stripLoop_zero] at h
  | succ n ih =>
    intro v r h
    rw [stripLoop_succ] at h
    cases hs : stripSinglePredecessorArgs g (n + 1) v with
    | ok V1 =>
      rw [hs] at h
      simp only at h
      by_cases hk : strips (g.getKind V1) = true
      · rw [if_pos hk] at h
        cases ho : getOperand g V1 0 with
        | none =>
          rw [ho] at h
          simp at h
        | some V2 =>
          rw [ho] at h
          exact ih V2 r h
      · rw [if_neg hk] at h
        have hr : V1 = r := by simpa using h
        subst hr
        exact ⟨strip_result_unresolvable g (n + 1) v V1 hs, by simpa using hk⟩
    | fault =>
      rw [hs] at h
      simp at h
    | timeout =>
      rw [hs] at h
      simp at h

/-- Applying a strip loop to its own result returns that result. -/
theorem stripLoop_idem (strips : ValueKind → Bool) (g : Graph) (n : Nat) (v r : SILValue)
    (h : stripLoop strips g n v = .ok r) (m : Nat) :
    stripLoop strips g (m + 1) r = .ok r := by
  obtain ⟨hu, hk⟩ := stripLoop_normal strips g n v r h
  exact stripLoop_stop strips g r hu hk m

/-- A larger budget does not change a value already returned by a strip loop. -/
theorem stripLoop_mono (strips : ValueKind → Bool) (g : Graph) :
    ∀ (n : Nat) (v r : SILValue), stripLoop strips g n v = .ok r →
      ∀ m, n ≤ m → stripLoop strips g m v = .ok r := by
  intro n
  induction n with
  | zero =>
    intro v r h
    simp [stripLoop_zero] at h
  | succ n ih =>
    intro v r h m hm
    obtain ⟨k, rfl⟩ : ∃ k, m = k + 1 := ⟨m - 1, by omega⟩
    rw [stripLoop_succ] at h ⊢
    cases hs : stripSinglePredecessorArgs g (n + 1) v with
    | ok V1 =>
      rw [hs] at h
      rw [strip_mono g (n + 1) v V1 hs (k + 1) hm]
      simp only at h ⊢
      by_cases hk : strips (g.getKind V1) = true
      · rw [if_pos hk] at h ⊢
        cases ho : getOperand g V1 0 with
        | none =>
          rw [ho] at h
          simp at h
        | some V2 =>
          rw [ho] at h
          exact ih V2 r h k (by omega)
      · rw [if_neg hk] at h ⊢
        exact h
    | fault =>
      rw [hs] at h
      simp at h
    | timeout =>
      rw [hs] at h
      simp at h

/-! ## Lemmas on `stripIndexingInsts` -/

theorem stripIndexingInsts_stop (g : Graph) (v : SILValue)
    (h : isIndexingInst (g.node v) = false) (n : Nat) :
    stripIndexingInsts g (n + 1) v = .ok v := by
  rw [stripIndexingInsts]
  simp [h]

theorem stripIndexingInsts_normal (g : Graph) :
    ∀ (n : Nat) (v r : SILValue), stripIndexingInsts g n v = .ok r →
      isIndexingInst (g.node r) = false := by
  intro n
  induction n with
  | zero =>
    intro v r h
    simp [stripIndexingInsts] at h
  | succ n ih =>
    intro v r h
    rw [stripIndexingInsts] at h
    by_cases hi : isIndexingInst (g.node v) = true
    · simp only [hi, Bool.not_true, Bool.false_eq_true, if_false] at h
      cases hb : getBase g v with
      | none =>
        rw [hb] at h
        simp at h
      | some V' =>
        rw [hb] at h
        exact ih V' r h
    · have hi' : isIndexingInst (g.node v) = false := by simpa using hi
      simp only [hi', Bool.not_false, if_true] at h
      have hr : v = r := by simpa using h
      subst hr
      exact hi'

theorem getSinglePredecessor_single (g : Graph) (B P : BlockId)
    (h : (g.block B).preds = [P]) : getSinglePredecessor g B = some P := by
  unfold getSinglePredecessor
  rw [h]

theorem getSinglePredecessor_none (g : Graph) (B : BlockId)
    (h : (g.block B).preds.length ≠ 1) : getSinglePredecessor g B = none := by
  unfold getSinglePredecessor
  split
  · next P hP =>
    rw [hP] at h
    simp at h
  · rfl

theorem getArg_inRange (g : Graph) (args : List OperandId) (i : Nat) (hi : i < args.length) :
    getArg g args i = some (g.get args[i]) := by
  unfold getArg
  rw [List.getElem?_eq_getElem hi]
  rfl

theorem argStep_nonArgument (g : Graph) (v : SILValue)
    (h : ∀ ty B i, g.node v ≠ .argument ty B i) : argStep g v = .leave (.ok v) := by
  unfold argStep
  split
  · next ty B i hn => exact absurd hn (h ty B i)
  · rfl

/-! ## Block-argument resolution: main results -/

/-- C5. Single-predecessor resolution through an unconditional branch: when
block `B` has the only predecessor `A`, `A` ends in a `br` to `B` with argument
list `args`, and `x` is the entry at index `i` of that list, then
`stripSinglePredecessorArgs` of `B`'s argument `i` is
`stripSinglePredecessorArgs` of `x` (one more loop iteration), and it is `x`
itself when `x` is not a block argument. -/
theorem strip_through_branch (g : Graph) (a : SILValue) (ty : SILType) (B : BlockId)
    (i : Nat) (hnode : g.node a = .argument ty B i) (A : BlockId)
    (hpred : (g.block B).preds = [A]) (args : List OperandId)
    (hterm : getTerminator g A = .BranchInst B args) (x : SILValue)
    (hx : getArg g args i = some x) :
    (∀ n, stripSinglePredecessorArgs g (n + 1) a = stripSinglePredecessorArgs g n x) ∧
    ((∀ ty' B' i', g.node x ≠ .argument ty' B' i') →
      ∀ n, stripSinglePredecessorArgs g (n + 2) a = .ok x) := by
  have hstep : argStep g a = .again x := by
    unfold argStep
    rw [hnode]
    simp only [getSinglePredecessor_single g B A hpred, hterm, hx]
  have h1 : ∀ n, stripSinglePredecessorArgs g (n + 1) a =
      stripSinglePredecessorArgs g n x := by
    intro n
    rw [strip_succ, hstep]
  refine ⟨h1, ?_⟩
  intro hnarg n
  rw [h1 (n + 1), strip_succ, argStep_nonArgument g _ hnarg]

/-- Witness for C5, the test case of the spec: block 0 ends in `br` to block 1
with arguments `[X, Y]` (values 0 and 1); argument 1 of block 1 (value 11)
resolves to `Y`. -/
theorem strip_through_branch_witness :
    cfgGraph.node 11 = .argument 7 1 1 ∧ (cfgGraph.block 1).preds = [0] ∧
    getTerminator cfgGraph 0 = .BranchInst 1 [0, 1] ∧ getArg cfgGraph [0, 1] 1 = some 1 ∧
    (∀ n, stripSinglePredecessorArgs cfgGraph (n + 1) 11 =
      stripSinglePredecessorArgs cfgGraph n 1) ∧
    (∀ n, stripSinglePredecessorArgs cfgGraph (n + 2) 11 = .ok 1) :=
  ⟨rfl, rfl, rfl, rfl,
    (strip_through_branch cfgGraph 11 7 1 1 rfl 0 rfl [0, 1] rfl 1 rfl).1,
    (strip_through_branch cfgGraph 11 7 1 1 rfl 0 rfl [0, 1] rfl 1 rfl).2
      (fun _ _ _ h => by cases h)⟩

/-- C6. Conditional-branch argument selection: for an argument `a` with index
`i` of a block `B` whose only predecessor ends in a `cond_br`,
`stripSinglePredecessorArgs` continues with entry `i` of the true-destination
argument list when `B` is the true destination, with entry `i` of the
false-destination argument list when `B` is the false destination (and not
also the true one), and in both cases returns that entry when it is not
resolvable itself; when `B` is neither destination, `a` is returned. -/
theorem strip_through_cond_branch (g : Graph) (a : SILValue) (ty : SILType) (B : BlockId)
    (i : Nat) (hnode : g.node a = .argument ty B i) (P : BlockId)
    (hpred : (g.block B).preds = [P]) (cond : OperandId) (trueBB : BlockId)
    (trueArgs : List OperandId) (falseBB : BlockId) (falseArgs : List OperandId)
    (hterm : getTerminator g P = .CondBranchInst cond trueBB trueArgs falseBB falseArgs) :
    (B = trueBB → ∀ x, getArg g trueArgs i = some x →
      (∀ n, stripSinglePredecessorArgs g (n + 1) a = stripSinglePredecessorArgs g n x) ∧
      (Unresolvable g x → ∀ n, stripSinglePredecessorArgs g (n + 2) a = .ok x)) ∧
    (B ≠ trueBB → B = falseBB → ∀ x, getArg g falseArgs i = some x →
      (∀ n, stripSinglePredecessorArgs g (n + 1) a = stripSinglePredecessorArgs g n x) ∧
      (Unresolvable g x → ∀ n, stripSinglePredecessorArgs g (n + 2) a = .ok x)) ∧
    (B ≠ trueBB → B ≠ falseBB →
      ∀ n, stripSinglePredecessorArgs g (n + 1) a = .ok a) := by
  have hstep : argStep g a =
      match getArgForDestBB g trueBB trueArgs falseBB falseArgs B i with
      | some Arg => .again Arg
      | none => .leave (.ok a) := by
    unfold argStep
    rw [hnode]
    simp only [getSinglePredecessor_single g B P hpred, hterm]
  refine ⟨?_, ?_, ?_⟩
  · intro hB x hx
    have hsel : getArgForDestBB g trueBB trueArgs falseBB falseArgs B i = some x := by
      unfold getArgForDestBB
      rw [if_pos hB]
      exact hx
    rw [hsel] at hstep
    have h1 : ∀ n, stripSinglePredecessorArgs g (n + 1) a =
        stripSinglePredecessorArgs g n x := by
      intro n
      rw [strip_succ, hstep]
    exact ⟨h1, fun hu n => by rw [h1 (n + 1)]; exact strip_unresolvable g _ hu n⟩
  · intro hT hB x hx
    have hsel : getArgForDestBB g trueBB trueArgs falseBB falseArgs B i = some x := by
      unfold getArgForDestBB
      rw [if_neg hT, if_pos hB]
      exact hx
    rw [hsel] at hstep
    have h1 : ∀ n, stripSinglePredecessorArgs g (n + 1) a =
        stripSinglePredecessorArgs g n x := by
      intro n
      rw [strip_succ, hstep]
    exact ⟨h1, fun hu n => by rw [h1 (n + 1)]; exact strip_unresolvable g _ hu n⟩
  · intro hT hF n
    have hsel : getArgForDestBB g trueBB trueArgs falseBB falseArgs B i = none := by
      unfold getArgForDestBB
      rw [if_neg hT, if_neg hF]
    rw [hsel] at hstep
    rw [strip_succ, hstep]

/-- Witness for C6, the test case of the spec: block 1 ends in `cond_br` with
true destination block 2 and `[P, Q]` (values 2, 3), false destination block 3
and `[R]` (value 4).  Argument 1 of block 2 (value 13) resolves to `Q`,
argument 0 of block 3 (value 14) to `R`, and the argument of block 7 (value
17), which is neither destination, to itself. -/
theorem strip_through_cond_branch_witness :
    getTerminator cfgGraph 1 = .CondBranchInst 2 2 [3, 4] 3 [5] ∧
    (∀ n, stripSinglePredecessorArgs cfgGraph (n + 2) 13 = .ok 3) ∧
    (∀ n, stripSinglePredecessorArgs cfgGraph (n + 2) 14 = .ok 4) ∧
    (∀ n, stripSinglePredecessorArgs cfgGraph (n + 1) 17 = .ok 17) :=
  ⟨rfl,
    ((strip_through_cond_branch cfgGraph 13 7 2 1 rfl 1 rfl 2 2 [3, 4] 3 [5] rfl).1 rfl
      3 rfl).2 (by decide),
    ((strip_through_cond_branch cfgGraph 14 7 3 0 rfl 1 rfl 2 2 [3, 4] 3 [5] rfl).2.1
      (by decide) rfl 4 rfl).2 (by decide),
    (strip_through_cond_branch cfgGraph 17 7 7 0 rfl 1 rfl 2 2 [3, 4] 3 [5] rfl).2.2
      (by decide) (by decide)⟩

/-- C7. Non-resolution: `stripSinglePredecessorArgs(v)` returns `v` itself for
every value that is not a block argument, for every block argument whose block
has zero or more than one predecessor, and for every block argument whose
single predecessor ends in a terminator that is neither `br` nor `cond_br`. -/
theorem strip_non_resolution (g : Graph) (v : SILValue) :
    ((∀ ty B i, g.node v ≠ .argument ty B i) →
      ∀ n, stripSinglePredecessorArgs g (n + 1) v = .ok v) ∧
    (∀ ty B i, g.node v = .argument ty B i → (g.block B).preds.length ≠ 1 →
      ∀ n, stripSinglePredecessorArgs g (n + 1) v = .ok v) ∧
    (∀ ty B i P k, g.node v = .argument ty B i → (g.block B).preds = [P] →
      getTerminator g P = .other k →
      ∀ n, stripSinglePredecessorArgs g (n + 1) v = .ok v) := by
  refine ⟨?_, ?_, ?_⟩
  · intro h n
    rw [strip_succ, argStep_nonArgument g v h]
  · intro ty B i hnode hp n
    have hstep : argStep g v = .leave (.ok v) := by
      unfold argStep
      rw [hnode]
      simp only [getSinglePredecessor_none g B hp]
    rw [strip_succ, hstep]
  · intro ty B i P k hnode hp ht n
    have hstep : argStep g v = .leave (.ok v) := by
      unfold argStep
      rw [hnode]
      simp only [getSinglePredecessor_single g B P hp, ht]
    rw [strip_succ, hstep]

/-- Witness for C7 on the sample graph: an instruction (value 1), the argument
of a block with two predecessors (value 15), the argument of a block without
predecessor (value 18), and the argument of a block whose single predecessor
ends in another terminator (value 16). -/
theorem strip_non_resolution_witness :
    (∀ n, stripSinglePredecessorArgs cfgGraph (n + 1) 1 = .ok 1) ∧
    (∀ n, stripSinglePredecessorArgs cfgGraph (n + 1) 15 = .ok 15) ∧
    (∀ n, stripSinglePredecessorArgs cfgGraph (n + 1) 18 = .ok 18) ∧
    (∀ n, stripSinglePredecessorArgs cfgGraph (n + 1) 16 = .ok 16) :=
  ⟨(strip_non_resolution cfgGraph 1).1 (fun _ _ _ h => by cases h),
    (strip_non_resolution cfgGraph 15).2.1 7 4 0 rfl (by decide),
    (strip_non_resolution cfgGraph 18).2.1 7 8 0 rfl (by decide),
    (strip_non_resolution cfgGraph 16).2.2 7 5 0 6 (.OtherInst 2) rfl rfl rfl⟩

/-! ## The three strip functions are instances of the shared loop -/

theorem stripCasts_eq (g : Graph) :
    ∀ (n : Nat) (V : SILValue), stripCasts g n V = stripLoop isStrippedCast g n V := by
  intro n
  induction n with
  | zero => exact fun V => rfl
  | succ n ih =>
    intro V
    rw [stripCasts, stripLoop]
    cases stripSinglePredecessorArgs g (n + 1) V with
    | ok V1 =>
      simp only [isStrippedCast]
      split
      · cases getOperand g V1 0 with
        | none => rfl
        | some V2 => exact ih V2
      · rfl
    | fault => rfl
    | timeout => rfl

theorem stripAddressProjections_eq (g : Graph) :
    ∀ (n : Nat) (V : SILValue),
      stripAddressProjections g n V = stripLoop isAddressProjection g n V := by
  intro n
  induction n with
  | zero => exact fun V => rfl
  | succ n ih =>
    intro V
    rw [stripAddressProjections, stripLoop]
    cases stripSinglePredecessorArgs g (n + 1) V with
    | ok V1 =>
      simp only
      cases hk : g.getKind V1 <;> simp only [isAddressProjection, if_true, Bool.false_eq_true,
        if_false] <;> cases getOperand g V1 0 <;> first | rfl | exact ih _
    | fault => rfl
    | timeout => rfl

theorem stripAggregateProjections_eq (g : Graph) :
    ∀ (n : Nat) (V : SILValue),
      stripAggregateProjections g n V = stripLoop isAggregateProjection g n V := by
  intro n
  induction n with
  | zero => exact fun V => rfl
  | succ n ih =>
    intro V
    rw [stripAggregateProjections, stripLoop]
    cases stripSinglePredecessorArgs g (n + 1) V with
    | ok V1 =>
      simp only
      cases hk : g.getKind V1 <;> simp only [isAggregateProjection, if_true, Bool.false_eq_true,
        if_false] <;> cases getOperand g V1 0 <;> first | rfl | exact ih _
    | fault => rfl
    | timeout => rfl

/-! ## The strip functions: main results -/

theorem isCastOf_spec (g : Graph) (c x : SILValue) (h : isCastOf g c x = true) :
    Unresolvable g c ∧ isStrippedCast (g.getKind c) = true ∧ getOperand g c 0 = some x := by
  unfold isCastOf at h
  split at h
  · next k ty p ops hn =>
    simp only [Bool.and_eq_true, beq_iff_eq] at h
    refine ⟨?_, ?_, h.2⟩
    · rw [unresolvable_iff]
      apply argStep_nonArgument
      intro ty' B i hc
      rw [hn] at hc
      cases hc
    · unfold isStrippedCast Graph.getKind
      rw [hn]
      simp [ValueBase.getKind, h.1]
  · simp at h

theorem stripCasts_cast (g : Graph) (c x : SILValue) (h : isCastOf g c x = true) (n : Nat) :
    stripCasts g (n + 1) c = stripCasts g n x := by
  obtain ⟨hu, hk, hop⟩ := isCastOf_spec g c x h
  rw [stripCasts_eq, stripCasts_eq]
  exact stripLoop_step isStrippedCast g c x hu hk hop n

theorem stripCasts_chain (g : Graph) :
    ∀ (cs : List SILValue) (x : SILValue), castChain g x cs = true →
      ∀ n, stripCasts g (n + cs.length) (cs.getLastD x) = stripCasts g n x := by
  intro cs
  induction cs with
  | nil =>
    intro x _ n
    rfl
  | cons c cs ih =>
    intro x h n
    simp only [castChain, Bool.and_eq_true] at h
    have h1 := ih c h.2 (n + 1)
    have h2 := stripCasts_cast g c x h.1 n
    have hlast : (c :: cs).getLastD x = cs.getLastD c := by
      cases cs <;> rfl
    rw [hlast, List.length_cons, ← h2, ← h1]
    congr 1
    omega

/-- C8. Cast-chain collapse: for every instruction `c` whose kind is a
representation-identity-preserving cast and whose operand 0 is `x`,
`stripCasts(c)` is `stripCasts(x)` (one more loop iteration); hence for every
finite chain of such casts built on a value `x` that is not resolvable and
whose kind `stripCasts` does not step past, `stripCasts` of the top of the
chain is `x`. -/
theorem stripCasts_collapse (g : Graph) :
    (∀ c x, isCastOf g c x = true → ∀ n, stripCasts g (n + 1) c = stripCasts g n x) ∧
    (∀ x cs, castChain g x cs = true → Unresolvable g x →
      isStrippedCast (g.getKind x) = false →
      ∀ n, stripCasts g (n + 1 + cs.length) (cs.getLastD x) = .ok x) := by
  refine ⟨fun c x h n => stripCasts_cast g c x h n, ?_⟩
  intro x cs hc hu hk n
  rw [stripCasts_chain g cs x hc (n + 1), stripCasts_eq]
  exact stripLoop_stop isStrippedCast g x hu hk n

/-- Witness for C8, the test case of the spec: `v1 = Upcast(x)` (value 20 on
value 1), `v2 = AddressToPointer(v1)` (value 21), `stripCasts(v2) = x`. -/
theorem stripCasts_collapse_witness :
    isCastOf cfgGraph 20 1 = true ∧ isCastOf cfgGraph 21 20 = true ∧
    (∀ n, stripCasts cfgGraph (n + 1) 21 = stripCasts cfgGraph n 20) ∧
    (∀ n, stripCasts cfgGraph (n + 1 + 2) 21 = .ok 1) :=
  ⟨by decide, by decide,
    (stripCasts_collapse cfgGraph).1 21 20 (by decide),
    (stripCasts_collapse cfgGraph).2 1 [20, 21] (by decide) (by decide) (by decide)⟩

/-- C9. Idempotence: for each of `stripCasts`, `stripAddressProjections`,
`stripAggregateProjections` and `stripIndexingInsts`, whenever the function
returns `r` on a value `v`, applying it to `r` returns `r` again. -/
theorem strip_idempotent (g : Graph) (n : Nat) (v r : SILValue) :
    (stripCasts g n v = .ok r → ∀ m, stripCasts g (m + 1) r = .ok r) ∧
    (stripAddressProjections g n v = .ok r →
      ∀ m, stripAddressProjections g (m + 1) r = .ok r) ∧
    (stripAggregateProjections g n v = .ok r →
      ∀ m, stripAggregateProjections g (m + 1) r = .ok r) ∧
    (stripIndexingInsts g n v = .ok r → ∀ m, stripIndexingInsts g (m + 1) r = .ok r) :=
  ⟨fun h m => by
      rw [stripCasts_eq] at h ⊢
      exact stripLoop_idem isStrippedCast g n v r h m,
    fun h m => by
      rw [stripAddressProjections_eq] at h ⊢
      exact stripLoop_idem isAddressProjection g n v r h m,
    fun h m => by
      rw [stripAggregateProjections_eq] at h ⊢
      exact stripLoop_idem isAggregateProjection g n v r h m,
    fun h m => stripIndexingInsts_stop g r (stripIndexingInsts_normal g n v r h) m⟩

/-- Witness for C9 on the sample graph: `stripCasts` takes value 21 to value 1
and value 1 to itself. -/
theorem strip_idempotent_witness :
    stripCasts cfgGraph 3 21 = .ok 1 ∧ (∀ m, stripCasts cfgGraph (m + 1) 1 = .ok 1) :=
  ⟨by decide, (strip_idempotent cfgGraph 3 21 1).1 (by decide)⟩

/-- C10. Identity when nothing applies: for every value `v` that is not
resolvable through a single predecessor and whose kind is not in the
function's strip set, `stripCasts(v) = v`, `stripAddressProjections(v) = v` and
`stripAggregateProjections(v) = v`; and for every value `v` whose defining node
is not an indexing instruction, `stripIndexingInsts(v) = v`. -/
theorem strip_identity (g : Graph) (v : SILValue) :
    (Unresolvable g v → isStrippedCast (g.getKind v) = false →
      ∀ n, stripCasts g (n + 1) v = .ok v) ∧
    (Unresolvable g v → isAddressProjection (g.getKind v) = false →
      ∀ n, stripAddressProjections g (n + 1) v = .ok v) ∧
    (Unresolvable g v → isAggregateProjection (g.getKind v) = false →
      ∀ n, stripAggregateProjections g (n + 1) v = .ok v) ∧
    (isIndexingInst (g.node v) = false → ∀ n, stripIndexingInsts g (n + 1) v = .ok v) :=
  ⟨fun hu hk n => by
      rw [stripCasts_eq]
      exact stripLoop_stop isStrippedCast g v hu hk n,
    fun hu hk n => by
      rw [stripAddressProjections_eq]
      exact stripLoop_stop isAddressProjection g v hu hk n,
    fun hu hk n => by
      rw [stripAggregateProjections_eq]
      exact stripLoop_stop isAggregateProjection g v hu hk n,
    fun hi n => stripIndexingInsts_stop g v hi n⟩

/-- Witness for C10 on the sample graph: value 1 is an instruction of another
kind, and value 15 is the argument of a block with two predecessors. -/
theorem strip_identity_witness :
    (∀ n, stripCasts cfgGraph (n + 1) 1 = .ok 1) ∧
    (∀ n, stripAddressProjections cfgGraph (n + 1) 15 = .ok 15) ∧
    (∀ n, stripAggregateProjections cfgGraph (n + 1) 1 = .ok 1) ∧
    (∀ n, stripIndexingInsts cfgGraph (n + 1) 15 = .ok 15) :=
  ⟨(strip_identity cfgGraph 1).1 (by decide) (by decide),
    (strip_identity cfgGraph 15).2.1 (by decide) (by decide),
    (strip_identity cfgGraph 1).2.2.1 (by decide) (by decide),
    (strip_identity cfgGraph 15).2.2.2 (by decide)⟩

/-! ## Kind sets -/

theorem isAddressProjection_iff (K : ValueKind) :
    isAddressProjection K = true ↔
      K = .StructElementAddrInst ∨ K = .TupleElementAddrInst ∨ K = .RefElementAddrInst := by
  cases K <;> simp [isAddressProjection]

theorem isAggregateProjection_iff (K : ValueKind) :
    isAggregateProjection K = true ↔ K = .StructExtractInst ∨ K = .TupleExtractInst := by
  cases K <;> simp [isAggregateProjection]

theorem isRCIdentityPreservingCast_iff (K : ValueKind) :
    isRCIdentityPreservingCast K = true ↔
      K = .UpcastInst ∨ K = .AddressToPointerInst ∨ K = .PointerToAddressInst ∨
      K = .UncheckedRefCastInst ∨ K = .UncheckedAddrCastInst ∨ K = .RefToRawPointerInst ∨
      K = .RawPointerToRefInst ∨ K = .UnconditionalCheckedCastInst ∨
      K = .UncheckedRefBitCastInst := by
  cases K <;> simp [isRCIdentityPreservingCast]

/-- An address projection is no aggregate projection, and the other way round. -/
theorem projection_kinds_disjoint (K : ValueKind) :
    (isAddressProjection K = true → isAggregateProjection K = false) ∧
    (isAggregateProjection K = true → isAddressProjection K = false) := by
  cases K <;> simp [isAddressProjection, isAggregateProjection]

/-- Once resolution has reached a value whose kind is not stripped, the loop
returns it. -/
theorem stripLoop_after (strips : ValueKind → Bool) (g : Graph) (n : Nat) (v r : SILValue)
    (hres : stripSinglePredecessorArgs g (n + 1) v = .ok r)
    (hk : strips (g.getKind r) = false) : stripLoop strips g (n + 1) v = .ok r := by
  rw [stripLoop_succ, hres]
  simp [hk]

/-- Once resolution has reached a value whose kind is stripped, the loop goes
on with its operand 0. -/
theorem stripLoop_after_step (strips : ValueKind → Bool) (g : Graph) (n : Nat)
    (v r x : SILValue) (hres : stripSinglePredecessorArgs g (n + 1) v = .ok r)
    (hk : strips (g.getKind r) = true) (hop : getOperand g r 0 = some x) :
    stripLoop strips g (n + 1) v = stripLoop strips g n x := by
  rw [stripLoop_succ, hres]
  simp [hk, hop]

theorem unresolvable_instruction (g : Graph) (v : SILValue) (k : ValueKind) (ty : SILType)
    (p : BlockId) (ops : List OperandId) (h : g.node v = .instruction k ty p ops) :
    Unresolvable g v ∧ g.getKind v = k := by
  constructor
  · rw [unresolvable_iff]
    apply argStep_nonArgument
    intro ty' B i hc
    rw [h] at hc
    cases hc
  · unfold Graph.getKind
    rw [h]
    rfl

/-! ## Projections, parent block, strip condition: main results -/

/-- C11. Mixed-projection independence: for every value whose defining
instruction is an address projection (`StructElementAddr`, `TupleElementAddr`,
`RefElementAddr`), `stripAggregateProjections` returns the value itself; for
every value whose defining instruction is an aggregate projection
(`StructExtract`, `TupleExtract`), `stripAddressProjections` returns the value
itself; and whenever the resolution of block arguments inside either function
arrives at a projection of the other kind, that projection is returned. -/
theorem mixed_projection_independence (g : Graph) :
    (∀ v k ty p ops, g.node v = .instruction k ty p ops →
      (k = .StructElementAddrInst ∨ k = .TupleElementAddrInst ∨ k = .RefElementAddrInst) →
      ∀ n, stripAggregateProjections g (n + 1) v = .ok v) ∧
    (∀ v k ty p ops, g.node v = .instruction k ty p ops →
      (k = .StructExtractInst ∨ k = .TupleExtractInst) →
      ∀ n, stripAddressProjections g (n + 1) v = .ok v) ∧
    (∀ n v r, stripSinglePredecessorArgs g (n + 1) v = .ok r →
      (g.getKind r = .StructElementAddrInst ∨ g.getKind r = .TupleElementAddrInst ∨
        g.getKind r = .RefElementAddrInst) →
      stripAggregateProjections g (n + 1) v = .ok r) ∧
    (∀ n v r, stripSinglePredecessorArgs g (n + 1) v = .ok r →
      (g.getKind r = .StructExtractInst ∨ g.getKind r = .TupleExtractInst) →
      stripAddressProjections g (n + 1) v = .ok r) := by
  refine ⟨?_, ?_, ?_, ?_⟩
  · intro v k ty p ops hn hk n
    obtain ⟨hu, hkind⟩ := unresolvable_instruction g v k ty p ops hn
    rw [stripAggregateProjections_eq]
    apply stripLoop_stop isAggregateProjection g v hu _ n
    rw [hkind]
    exact (projection_kinds_disjoint k).1 ((isAddressProjection_iff k).mpr hk)
  · intro v k ty p ops hn hk n
    obtain ⟨hu, hkind⟩ := unresolvable_instruction g v k ty p ops hn
    rw [stripAddressProjections_eq]
    apply stripLoop_stop isAddressProjection g v hu _ n
    rw [hkind]
    exact (projection_kinds_disjoint k).2 ((isAggregateProjection_iff k).mpr hk)
  · intro n v r hres hk
    rw [stripAggregateProjections_eq]
    apply stripLoop_after isAggregateProjection g n v r hres
    exact (projection_kinds_disjoint _).1 ((isAddressProjection_iff _).mpr hk)
  · intro n v r hres hk
    rw [stripAddressProjections_eq]
    apply stripLoop_after isAddressProjection g n v r hres
    exact (projection_kinds_disjoint _).2 ((isAggregateProjection_iff _).mpr hk)

/-- Witness for C11 on the second sample graph: the address-projection chain
31 over 30 over 1 is returned unchanged by `stripAggregateProjections` and
collapsed by `stripAddressProjections`; the aggregate-projection chain 33 over
32 over 1 the other way round; the block argument 12, which resolves to the
address projection 30, is taken to 30 by `stripAggregateProjections`. -/
theorem mixed_projection_independence_witness :
    (∀ n, stripAggregateProjections projGraph (n + 1) 31 = .ok 31) ∧
    stripAddressProjections projGraph 3 31 = .ok 1 ∧
    (∀ n, stripAddressProjections projGraph (n + 1) 33 = .ok 33) ∧
    stripAggregateProjections projGraph 3 33 = .ok 1 ∧
    stripAggregateProjections projGraph 2 12 = .ok 30 :=
  ⟨(mixed_projection_independence projGraph).1 31 .TupleElementAddrInst 7 0 [3] rfl
      (by decide),
    by decide,
    (mixed_projection_independence projGraph).2.1 33 .TupleExtractInst 7 0 [5] rfl
      (by decide),
    by decide,
    (mixed_projection_independence projGraph).2.2.1 1 12 30 (by decide) (by decide)⟩

/-- C12. Parent-block lookup is total: `getParentBB` returns the owning block of
an instruction, the owning block of a block argument, and none for every other
variant of value; being a total function it has no failing case. -/
theorem getParentBB_total :
    (∀ k ty parent ops, getParentBB (.instruction k ty parent ops) = some parent) ∧
    (∀ ty parent i, getParentBB (.argument ty parent i) = some parent) ∧
    (∀ k ty, getParentBB (.other k ty) = none) ∧
    (∀ n, getParentBB n = none ↔ ∃ k ty, n = .other k ty) := by
  refine ⟨fun _ _ _ _ => rfl, fun _ _ _ => rfl, fun _ _ => rfl, ?_⟩
  intro n
  cases n <;> simp [getParentBB]

/-- Witness for C12 on the second sample graph: instruction 30 and argument 12
have the parents 0 and 2, the undefined value 99 has none. -/
theorem getParentBB_total_witness :
    getParentBB (projGraph.node 30) = some 0 ∧ getParentBB (projGraph.node 12) = some 2 ∧
    getParentBB (projGraph.node 99) = none :=
  ⟨getParentBB_total.1 .StructElementAddrInst 7 0 [2], getParentBB_total.2.1 7 2 0,
    getParentBB_total.2.2.1 .SILUndef 7⟩

theorem isStrippedCast_iff (K : ValueKind) :
    isStrippedCast K = true ↔
      (isRCIdentityPreservingCast K = true ∨ K = .UncheckedTrivialBitCastInst) := by
  unfold isStrippedCast
  simp

/-- Counterexample to C13 as stated: value 22 of the second sample graph is an
`unchecked_trivial_bit_cast`, a kind that `isRCIdentityPreservingCast` rejects;
resolution leaves it as it is, and still `stripCasts` does not return it but
goes on to its operand 0, value 1. -/
theorem stripCasts_condition_counterexample :
    projGraph.getKind 22 = .UncheckedTrivialBitCastInst ∧
    isRCIdentityPreservingCast (projGraph.getKind 22) = false ∧
    stripSinglePredecessorArgs projGraph 2 22 = .ok 22 ∧
    getOperand projGraph 22 0 = some 1 ∧
    stripCasts projGraph 2 22 = .ok 1 ∧
    stripCasts projGraph 2 22 ≠ .ok 22 := by
  decide

/-- C13, amended. After resolving single-predecessor block arguments to a value
`r`, `stripCasts` replaces `r` by operand 0 of its defining instruction if and
only if the kind of `r` is accepted by `isRCIdentityPreservingCast` (exactly
the nine kinds `Upcast`, `AddressToPointer`, `PointerToAddress`,
`UncheckedRefCast`, `UncheckedAddrCast`, `RefToRawPointer`, `RawPointerToRef`,
`UnconditionalCheckedCast`, `UncheckedRefBitCast`) or is
`UncheckedTrivialBitCast`; for a value of any other kind it returns `r`. -/
theorem stripCasts_condition (g : Graph) (n : Nat) (v r : SILValue)
    (hres : stripSinglePredecessorArgs g (n + 1) v = .ok r) :
    ((isRCIdentityPreservingCast (g.getKind r) = true ∨
        g.getKind r = .UncheckedTrivialBitCastInst) →
      ∀ x, getOperand g r 0 = some x → stripCasts g (n + 1) v = stripCasts g n x) ∧
    (isRCIdentityPreservingCast (g.getKind r) = false →
      g.getKind r ≠ .UncheckedTrivialBitCastInst → stripCasts g (n + 1) v = .ok r) ∧
    (∀ K, isRCIdentityPreservingCast K = true ↔
      K = .UpcastInst ∨ K = .AddressToPointerInst ∨ K = .PointerToAddressInst ∨
      K = .UncheckedRefCastInst ∨ K = .UncheckedAddrCastInst ∨ K = .RefToRawPointerInst ∨
      K = .RawPointerToRefInst ∨ K = .UnconditionalCheckedCastInst ∨
      K = .UncheckedRefBitCastInst) := by
  refine ⟨?_, ?_, isRCIdentityPreservingCast_iff⟩
  · intro hk x hop
    rw [stripCasts_eq, stripCasts_eq]
    exact stripLoop_after_step isStrippedCast g n v r x hres
      ((isStrippedCast_iff _).mpr hk) hop
  · intro h1 h2
    rw [stripCasts_eq]
    apply stripLoop_after isStrippedCast g n v r hres
    cases hs : isStrippedCast (g.getKind r) with
    | false => rfl
    | true =>
      rcases (isStrippedCast_iff _).mp hs with h | h
      · rw [h1] at h
        cases h
      · exact absurd h h2

/-- Witness for C13 on the second sample graph: from the `upcast` 23 the loop
steps to its operand 22, from the `unchecked_trivial_bit_cast` 22 to its
operand 1, and the plain instruction 1 is returned. -/
theorem stripCasts_condition_witness :
    stripSinglePredecessorArgs projGraph 3 23 = .ok 23 ∧
    stripCasts projGraph 3 23 = stripCasts projGraph 2 22 ∧
    stripCasts projGraph 2 22 = stripCasts projGraph 1 1 ∧
    stripCasts projGraph 1 1 = .ok 1 :=
  ⟨by decide,
    (stripCasts_condition projGraph 2 23 23 (by decide)).1 (Or.inl (by decide)) 22
      (by decide),
    (stripCasts_condition projGraph 1 22 22 (by decide)).1 (Or.inr (by decide)) 1
      (by decide),
    (stripCasts_condition projGraph 0 1 1 (by decide)).2.1 (by decide) (by decide)⟩

/-! ## Argument index outside the list -/

theorem getKind_argument (g : Graph) (a : SILValue) (ty : SILType) (B : BlockId) (i : Nat)
    (h : g.node a = .argument ty B i) : g.getKind a = .SILArgument := by
  unfold Graph.getKind
  rw [h]
  rfl

/-- Counterexample to C14 as stated: in the second sample graph block 1 has the
only predecessor block 0, which ends in a `br` carrying one argument; value 11
is the argument of block 1 with index 1.  The loop takes entry 1 of the list
without a check (source line 65), so the run fails instead of returning
value 11, and so does `stripCasts`. -/
theorem strip_out_of_range_counterexample :
    projGraph.node 11 = .argument 7 1 1 ∧
    getSinglePredecessor projGraph 1 = some 0 ∧
    getTerminator projGraph 0 = .BranchInst 1 [8] ∧
    [8].length ≤ 1 ∧
    (∀ n, stripSinglePredecessorArgs projGraph (n + 1) 11 = .fault) ∧
    stripSinglePredecessorArgs projGraph 2 11 ≠ .ok 11 ∧
    stripCasts projGraph 2 11 = .fault := by
  refine ⟨rfl, rfl, rfl, by decide, ?_, by decide, by decide⟩
  intro n
  have h : argStep projGraph 11 = .leave .fault := by decide
  rw [strip_succ, h]

/-- C14, amended. An argument index outside the list of a `cond_br` is a normal
outcome: for every block argument `a` with index `i` whose block's single
predecessor ends in a `cond_br` whose argument list for that block has length
at most `i`, `stripSinglePredecessorArgs` returns `a`, and so do `stripCasts`,
`stripAddressProjections` and `stripAggregateProjections`. -/
theorem strip_out_of_range (g : Graph) (a : SILValue) (ty : SILType) (B : BlockId)
    (i : Nat) (hnode : g.node a = .argument ty B i) (P : BlockId)
    (hpred : (g.block B).preds = [P]) (cond : OperandId) (trueBB : BlockId)
    (trueArgs : List OperandId) (falseBB : BlockId) (falseArgs : List OperandId)
    (hterm : getTerminator g P = .CondBranchInst cond trueBB trueArgs falseBB falseArgs)
    (hT : B = trueBB → trueArgs.length ≤ i)
    (hF : B ≠ trueBB → B = falseBB → falseArgs.length ≤ i) :
    (∀ n, stripSinglePredecessorArgs g (n + 1) a = .ok a) ∧
    (∀ n, stripCasts g (n + 1) a = .ok a) ∧
    (∀ n, stripAddressProjections g (n + 1) a = .ok a) ∧
    (∀ n, stripAggregateProjections g (n + 1) a = .ok a) := by
  have hsel : getArgForDestBB g trueBB trueArgs falseBB falseArgs B i = none := by
    unfold getArgForDestBB
    by_cases h1 : B = trueBB
    · rw [if_pos h1, List.getElem?_eq_none (hT h1)]
      rfl
    · rw [if_neg h1]
      by_cases h2 : B = falseBB
      · rw [if_pos h2, List.getElem?_eq_none (hF h1 h2)]
        rfl
      · rw [if_neg h2]
  have hstep : argStep g a = .leave (.ok a) := by
    unfold argStep
    rw [hnode]
    simp only [getSinglePredecessor_single g B P hpred, hterm, hsel]
  have hu : Unresolvable g a := (unresolvable_iff g a).mpr hstep
  have hk := getKind_argument g a ty B i hnode
  refine ⟨fun n => strip_unresolvable g a hu n, ?_, ?_, ?_⟩
  · intro n
    rw [stripCasts_eq]
    apply stripLoop_stop isStrippedCast g a hu _ n
    rw [hk]
    rfl
  · intro n
    rw [stripAddressProjections_eq]
    apply stripLoop_stop isAddressProjection g a hu _ n
    rw [hk]
    rfl
  · intro n
    rw [stripAggregateProjections_eq]
    apply stripLoop_stop isAggregateProjection g a hu _ n
    rw [hk]
    rfl

/-- Witness for C14 on the second sample graph: block 1 ends in `cond_br` with
the true list `[30]` for block 2 and an empty false list for block 3; the
argument 13 of block 2 (index 1) and the argument 14 of block 3 (index 0) are
returned as they are. -/
theorem strip_out_of_range_witness :
    getTerminator projGraph 1 = .CondBranchInst 9 2 [10] 3 [] ∧
    (∀ n, stripSinglePredecessorArgs projGraph (n + 1) 13 = .ok 13) ∧
    (∀ n, stripCasts projGraph (n + 1) 13 = .ok 13) ∧
    (∀ n, stripSinglePredecessorArgs projGraph (n + 1) 14 = .ok 14) ∧
    (∀ n, stripAggregateProjections projGraph (n + 1) 14 = .ok 14) :=
  ⟨rfl,
    (strip_out_of_range projGraph 13 7 2 1 rfl 1 rfl 9 2 [10] 3 [] rfl
      (fun _ => by decide) (fun h => absurd rfl h)).1,
    (strip_out_of_range projGraph 13 7 2 1 rfl 1 rfl 9 2 [10] 3 [] rfl
      (fun _ => by decide) (fun h => absurd rfl h)).2.1,
    (strip_out_of_range projGraph 14 7 3 0 rfl 1 rfl 9 2 [10] 3 [] rfl
      (fun h => absurd h (by decide)) (fun _ _ => by decide)).1,
    (strip_out_of_range projGraph 14 7 3 0 rfl 1 rfl 9 2 [10] 3 [] rfl
      (fun h => absurd h (by decide)) (fun _ _ => by decide)).2.2.2⟩

/-! ## Indexing, drain-loop termination, normal forms: main results -/

theorem stripIndexingInsts_step (g : Graph) (v x : SILValue)
    (hi : isIndexingInst (g.node v) = true) (hb : getBase g v = some x) (n : Nat) :
    stripIndexingInsts g (n + 1) v = stripIndexingInsts g n x := by
  rw [stripIndexingInsts]
  simp [hi, hb]

/-- C16. `stripIndexingInsts` does not resolve block arguments: it returns every
block argument as it is, whatever the predecessors of its block supply; it
follows the base operand exactly while the defining node of the current value
is an indexing instruction, and returns the current value when it is not. -/
theorem stripIndexingInsts_no_resolution (g : Graph) :
    (∀ v ty B i, g.node v = .argument ty B i →
      ∀ n, stripIndexingInsts g (n + 1) v = .ok v) ∧
    (∀ v x, isIndexingInst (g.node v) = true → getBase g v = some x →
      ∀ n, stripIndexingInsts g (n + 1) v = stripIndexingInsts g n x) ∧
    (∀ v, isIndexingInst (g.node v) = false →
      ∀ n, stripIndexingInsts g (n + 1) v = .ok v) := by
  refine ⟨?_, fun v x hi hb n => stripIndexingInsts_step g v x hi hb n,
    fun v hi n => stripIndexingInsts_stop g v hi n⟩
  intro v ty B i hnode n
  apply stripIndexingInsts_stop
  rw [hnode]
  rfl

/-- Witness for C16 on the second sample graph: block 1 has the only
predecessor block 0, whose `br` supplies the `index_addr` 40 for the argument
10.  `stripSinglePredecessorArgs` resolves 10 to 40, `stripIndexingInsts`
returns 10, and it takes 40 to its base, value 1. -/
theorem stripIndexingInsts_no_resolution_witness :
    stripSinglePredecessorArgs projGraph 2 10 = .ok 40 ∧
    isIndexingInst (projGraph.node 40) = true ∧
    (∀ n, stripIndexingInsts projGraph (n + 1) 10 = .ok 10) ∧
    (∀ n, stripIndexingInsts projGraph (n + 1) 40 = stripIndexingInsts projGraph n 1) ∧
    (∀ n, stripIndexingInsts projGraph (n + 1) 1 = .ok 1) :=
  ⟨by decide, by decide,
    (stripIndexingInsts_no_resolution projGraph).1 10 7 1 0 rfl,
    (stripIndexingInsts_no_resolution projGraph).2.1 40 1 (by decide) (by decide),
    (stripIndexingInsts_no_resolution projGraph).2.2 1 (by decide)⟩

theorem drainState_uses (place : OperandId → List OperandId → Nat) (v w : SILValue)
    (hvw : v ≠ w) :
    ∀ (k : Nat) (g : Graph), UseListInv g →
      (drainState place k g v w).uses v = (g.uses v).drop k := by
  intro k
  induction k with
  | zero => exact fun g _ => rfl
  | succ k ih =>
    intro g hinv
    unfold drainState
    split
    · next h => rw [h]; rfl
    · next op rest h =>
      have hmem : op ∈ g.uses v := by rw [h]; exact List.mem_cons_self _ _
      rw [ih _ (set_preserves_inv place g hinv op (hinv.2.1 v op hmem).1 w),
        set_head_uses place g hinv v w hvw op rest h, h]
      rfl

/-- Draining a value into itself never finishes: each `set` puts the operand
back into the list it was taken from. -/
theorem drain_self (place : OperandId → List OperandId → Nat) (v : SILValue) :
    ∀ (fuel : Nat) (g : Graph), UseListInv g → g.uses v ≠ [] →
      drain place fuel g v v = none := by
  intro fuel
  induction fuel with
  | zero =>
    intro g _ hne
    cases h : g.uses v with
    | nil => exact absurd h hne
    | cons op rest => exact drain_zero_cons place g v v op rest h
  | succ f ih =>
    intro g hinv hne
    cases h : g.uses v with
    | nil => exact absurd h hne
    | cons op rest =>
      have hmem : op ∈ g.uses v := by rw [h]; exact List.mem_cons_self _ _
      rw [drain_cons place f g v v op rest h]
      apply ih _ (set_preserves_inv place g hinv op (hinv.2.1 v op hmem).1 v)
      intro hnil
      have hp := (set_uses_perm place g op v).length_eq
      rw [hnil] at hp
      simp at hp

/-- C17. Drain-loop termination: for distinct values `v` and `w` in a graph
satisfying the use-list invariant, each iteration of the loop of
`replaceAllUsesWith` removes exactly the first operand from `v`'s use list, so
after `k` iterations the list is the original one without its first `k`
entries, and the loop finishes after exactly `n` iterations, `n` being the
initial size of the list: a budget of `n` iterations suffices and no smaller
one does.  Without distinctness the list never shrinks: draining a value with
a non-empty use list into itself does not finish for any budget. -/
theorem drain_terminates_exactly (place : OperandId → List OperandId → Nat) (g : Graph)
    (hinv : UseListInv g) (v w : SILValue) (hvw : v ≠ w) :
    (∀ op rest, g.uses v = op :: rest → (Operand.set place g op w).uses v = rest) ∧
    (∀ k, (drainState place k g v w).uses v = (g.uses v).drop k) ∧
    (∃ g', drain place (g.uses v).length g v w = some g' ∧ g'.uses v = []) ∧
    (∀ fuel, fuel < (g.uses v).length → drain place fuel g v w = none) ∧
    (g.uses v ≠ [] → ∀ fuel, drain place fuel g v v = none) := by
  refine ⟨fun op rest h => set_head_uses place g hinv v w hvw op rest h,
    fun k => drainState_uses place v w hvw k g hinv, ?_,
    fun fuel hf => drain_short place v w hvw (g.uses v) g hinv rfl fuel hf,
    fun hne fuel => drain_self place v fuel g hinv hne⟩
  obtain ⟨g', hd, _, _, _, _, hv, _⟩ :=
    drain_spec place v w hvw (g.uses v) g hinv rfl (g.uses v).length (Nat.le_refl _)
  exact ⟨g', hd, hv⟩

/-- Witness for C17 on the sample use graph: value 0 has two uses; draining it
into value 1 needs exactly two iterations, and draining it into itself does
not finish. -/
theorem drain_terminates_exactly_witness :
    UseListInv useGraph ∧ (useGraph.uses 0).length = 2 ∧
    (∀ k, (drainState placeFront k useGraph 0 1).uses 0 = (useGraph.uses 0).drop k) ∧
    (∃ g', drain placeFront 2 useGraph 0 1 = some g' ∧ g'.uses 0 = []) ∧
    (∀ fuel, fuel < 2 → drain placeFront fuel useGraph 0 1 = none) ∧
    (∀ fuel, drain placeFront fuel useGraph 0 0 = none) :=
  ⟨useGraph_inv, by decide,
    (drain_terminates_exactly placeFront useGraph useGraph_inv 0 1 (by decide)).2.1,
    (drain_terminates_exactly placeFront useGraph useGraph_inv 0 1 (by decide)).2.2.1,
    (drain_terminates_exactly placeFront useGraph useGraph_inv 0 1 (by decide)).2.2.2.1,
    (drain_terminates_exactly placeFront useGraph useGraph_inv 0 1 (by decide)).2.2.2.2
      (by decide)⟩

/-- C18. Normal form: whenever `stripCasts` returns `r`, `r` is a fixed point of
`stripSinglePredecessorArgs` and the kind of `r` is none of the kinds
`stripCasts` steps past (the nine of `isRCIdentityPreservingCast` and
`UncheckedTrivialBitCast`); likewise a result of `stripAddressProjections` is a
fixed point and no `StructElementAddr`, `TupleElementAddr` or `RefElementAddr`,
and a result of `stripAggregateProjections` is a fixed point and no
`StructExtract` or `TupleExtract`. -/
theorem strip_normal_form (g : Graph) (n : Nat) (v r : SILValue) :
    (stripCasts g n v = .ok r →
      (∀ m, stripSinglePredecessorArgs g (m + 1) r = .ok r) ∧
      isRCIdentityPreservingCast (g.getKind r) = false ∧
      g.getKind r ≠ .UncheckedTrivialBitCastInst) ∧
    (stripAddressProjections g n v = .ok r →
      (∀ m, stripSinglePredecessorArgs g (m + 1) r = .ok r) ∧
      g.getKind r ≠ .StructElementAddrInst ∧ g.getKind r ≠ .TupleElementAddrInst ∧
      g.getKind r ≠ .RefElementAddrInst) ∧
    (stripAggregateProjections g n v = .ok r →
      (∀ m, stripSinglePredecessorArgs g (m + 1) r = .ok r) ∧
      g.getKind r ≠ .StructExtractInst ∧ g.getKind r ≠ .TupleExtractInst) := by
  refine ⟨?_, ?_, ?_⟩
  · intro h
    rw [stripCasts_eq] at h
    obtain ⟨hu, hk⟩ := stripLoop_normal isStrippedCast g n v r h
    have hnot : ¬ (isRCIdentityPreservingCast (g.getKind r) = true ∨
        g.getKind r = .UncheckedTrivialBitCastInst) := by
      intro hc
      rw [(isStrippedCast_iff _).mpr hc] at hk
      cases hk
    refine ⟨fun m => strip_unresolvable g r hu m, ?_, fun hc => hnot (Or.inr hc)⟩
    cases hrc : isRCIdentityPreservingCast (g.getKind r) with
    | false => rfl
    | true => exact absurd (Or.inl hrc) hnot
  · intro h
    rw [stripAddressProjections_eq] at h
    obtain ⟨hu, hk⟩ := stripLoop_normal isAddressProjection g n v r h
    have hnot : ¬ (g.getKind r = .StructElementAddrInst ∨
        g.getKind r = .TupleElementAddrInst ∨ g.getKind r = .RefElementAddrInst) := by
      intro hc
      rw [(isAddressProjection_iff _).mpr hc] at hk
      cases hk
    exact ⟨fun m => strip_unresolvable g r hu m, fun hc => hnot (Or.inl hc),
      fun hc => hnot (Or.inr (Or.inl hc)), fun hc => hnot (Or.inr (Or.inr hc))⟩
  · intro h
    rw [stripAggregateProjections_eq] at h
    obtain ⟨hu, hk⟩ := stripLoop_normal isAggregateProjection g n v r h
    have hnot : ¬ (g.getKind r = .StructExtractInst ∨ g.getKind r = .TupleExtractInst) := by
      intro hc
      rw [(isAggregateProjection_iff _).mpr hc] at hk
      cases hk
    exact ⟨fun m => strip_unresolvable g r hu m, fun hc => hnot (Or.inl hc),
      fun hc => hnot (Or.inr hc)⟩

/-- Witness for C18 on the second sample graph: `stripCasts` takes 23 to 1,
`stripAddressProjections` takes the block argument 12 to 1, and
`stripAggregateProjections` takes the block argument 12 to the address
projection 30; each result is a fixed point of resolution. -/
theorem strip_normal_form_witness :
    stripCasts projGraph 3 23 = .ok 1 ∧
    (∀ m, stripSinglePredecessorArgs projGraph (m + 1) 1 = .ok 1) ∧
    stripAddressProjections projGraph 3 12 = .ok 1 ∧
    stripAggregateProjections projGraph 3 12 = .ok 30 ∧
    (∀ m, stripSinglePredecessorArgs projGraph (m + 1) 30 = .ok 30) ∧
    projGraph.getKind 30 ≠ .StructExtractInst :=
  ⟨by decide, ((strip_normal_form projGraph 3 23 1).1 (by decide)).1, by decide, by decide,
    ((strip_normal_form projGraph 3 12 30).2.2 (by decide)).1,
    ((strip_normal_form projGraph 3 12 30).2.2 (by decide)).2.1⟩

/-! ## Termination of block-argument resolution -/

theorem getSinglePredecessor_some (g : Graph) (B P : BlockId)
    (h : getSinglePredecessor g B = some P) : (g.block B).preds = [P] := by
  unfold getSinglePredecessor at h
  split at h
  · next Q hQ =>
    rw [hQ]
    simpa using h
  · simp at h

theorem getArg_mem (g : Graph) (args : List OperandId) (i : Nat) (x : SILValue)
    (h : getArg g args i = some x) : ∃ op, op ∈ args ∧ g.get op = x := by
  unfold getArg at h
  cases ho : args[i]? with
  | none =>
    rw [ho] at h
    simp at h
  | some op =>
    rw [ho] at h
    exact ⟨op, List.getElem?_mem ho, by simpa using h⟩

theorem getArgForDestBB_mem (g : Graph) (trueBB : BlockId) (trueArgs : List OperandId)
    (falseBB : BlockId) (falseArgs : List OperandId) (B : BlockId) (i : Nat) (x : SILValue)
    (h : getArgForDestBB g trueBB trueArgs falseBB falseArgs B i = some x) :
    ∃ op, op ∈ trueArgs ++ falseArgs ∧ g.get op = x := by
  unfold getArgForDestBB at h
  split at h
  · obtain ⟨op, hm, hx⟩ := getArg_mem g trueArgs i x h
    exact ⟨op, List.mem_append_left _ hm, hx⟩
  · split at h
    · obtain ⟨op, hm, hx⟩ := getArg_mem g falseArgs i x h
      exact ⟨op, List.mem_append_right _ hm, hx⟩
    · simp at h

/-- An iteration that goes round again was looking at an argument of a block
with a single predecessor, and goes on with a value passed by the terminator
of that predecessor. -/
theorem argStep_again (g : Graph) (V x : SILValue) (h : argStep g V = .again x) :
    ∃ ty B i P, g.node V = .argument ty B i ∧ (g.block B).preds = [P] ∧
      ∃ op, op ∈ termArgs (getTerminator g P) ∧ g.get op = x := by
  unfold argStep at h
  split at h
  · next ty B i hnode =>
    split at h
    · simp at h
    · next P hP =>
      refine ⟨ty, B, i, P, hnode, getSinglePredecessor_some g B P hP, ?_⟩
      split at h
      · next dest args hterm =>
        split at h
        · next V' hV =>
          have hx : V' = x := by simpa using h
          subst hx
          rw [hterm]
          exact getArg_mem g args i V' hV
        · simp at h
      · next c t tArgs f fArgs hterm =>
        split at h
        · next Arg hA =>
          have hx : Arg = x := by simpa using h
          subst hx
          rw [hterm]
          exact getArgForDestBB_mem g t tArgs f fArgs B i Arg hA
        · simp at h
      · simp at h
  · simp at h

/-- No iteration leaves the loop with an exhausted budget. -/
theorem argStep_leave_ne_timeout (g : Graph) (V : SILValue) (r : Outcome SILValue)
    (h : argStep g V = .leave r) : r ≠ .timeout := by
  unfold argStep at h
  repeat' split at h
  all_goals simp at h
  all_goals subst h
  all_goals simp

/-- A run that ended within its budget ends the same way with a larger one. -/
theorem strip_stable (g : Graph) :
    ∀ (n : Nat) (v : SILValue), stripSinglePredecessorArgs g n v ≠ .timeout →
      ∀ m, n ≤ m → stripSinglePredecessorArgs g m v = stripSinglePredecessorArgs g n v := by
  intro n
  induction n with
  | zero =>
    intro v h
    exact absurd (strip_zero g v) h
  | succ n ih =>
    intro v h m hm
    obtain ⟨k, rfl⟩ : ∃ k, m = k + 1 := ⟨m - 1, by omega⟩
    rw [strip_succ] at h ⊢
    rw [strip_succ]
    cases hs : argStep g v with
    | leave o => rfl
    | again V' =>
      rw [hs] at h
      exact ih V' h k (by omega)

theorem backPath_nil (g : Graph) (B entry : BlockId) :
    backPath g B [] entry = true ↔ B = entry := by
  simp [backPath]

theorem backPath_cons (g : Graph) (B P : BlockId) (rest : List BlockId) (entry : BlockId) :
    backPath g B (P :: rest) entry = true ↔
      P ∈ (g.block B).preds ∧ backPath g P rest entry = true := by
  simp [backPath]

/-- A path that passes through `D` has a part, not longer, that ends in `D`. -/
theorem backPath_truncate (g : Graph) (entry D : BlockId) :
    ∀ (rest : List BlockId) (B : BlockId), backPath g B rest entry = true →
      D ∈ B :: rest → ∃ rest', rest'.length ≤ rest.length ∧ backPath g D rest' entry = true := by
  intro rest
  induction rest with
  | nil =>
    intro B hp hD
    have : D = B := by simpa using hD
    subst this
    exact ⟨[], Nat.le_refl _, hp⟩
  | cons P rest ih =>
    intro B hp hD
    rcases List.mem_cons.mp hD with h | h
    · subst h
      exact ⟨P :: rest, Nat.le_refl _, hp⟩
    · obtain ⟨rest', hlen, hp'⟩ := ih P ((backPath_cons g B P rest entry).mp hp).2 h
      exact ⟨rest', by simp only [List.length_cons]; omega, hp'⟩

/-- Every block dominates itself. -/
theorem dominates_refl (g : Graph) (entry B : BlockId) : Dominates g entry B B :=
  fun _ _ => List.mem_cons_self _ _

/-- The entry block dominates every block. -/
theorem dominates_entry (g : Graph) (entry : BlockId) :
    ∀ (B : BlockId), Dominates g entry entry B := by
  intro B rest
  induction rest generalizing B with
  | nil =>
    intro hp
    have : B = entry := (backPath_nil g B entry).mp hp
    subst this
    exact List.mem_cons_self _ _
  | cons P rest ih =>
    intro hp
    exact List.mem_cons_of_mem _ (ih P ((backPath_cons g B P rest entry).mp hp).2)

/-- The walk of `stripSinglePredecessorArgs` ends within `k + 1` iterations when
the value it starts from, if a block argument, belongs to a block at most `k`
edges away from the entry block: each round moves to a block strictly nearer
to the entry. -/
theorem strip_terminates_within (g : Graph) (entry : BlockId)
    (hentry : (g.block entry).preds = []) (hdom : ArgsDominate g entry) :
    ∀ (k : Nat) (V : SILValue),
      (∀ ty B i, g.node V = .argument ty B i →
        ∃ rest, rest.length ≤ k ∧ backPath g B rest entry = true) →
      stripSinglePredecessorArgs g (k + 1) V ≠ .timeout := by
  intro k
  induction k with
  | zero =>
    intro V hV
    rw [strip_succ]
    cases hs : argStep g V with
    | leave r => exact argStep_leave_ne_timeout g V r hs
    | again x =>
      exfalso
      obtain ⟨ty, B, i, P, hnode, hpred, _⟩ := argStep_again g V x hs
      obtain ⟨rest, hlen, hp⟩ := hV ty B i hnode
      have hrest : rest = [] := List.length_eq_zero.mp (Nat.le_zero.mp hlen)
      subst hrest
      have hB : B = entry := (backPath_nil g B entry).mp hp
      subst hB
      rw [hentry] at hpred
      cases hpred
  | succ k ih =>
    intro V hV
    rw [strip_succ]
    cases hs : argStep g V with
    | leave r => exact argStep_leave_ne_timeout g V r hs
    | again x =>
      apply ih x
      intro ty' B' i' hnode'
      obtain ⟨ty, B, i, P, hnode, hpred, op, hop, hx⟩ := argStep_again g V x hs
      obtain ⟨rest, hlen, hp⟩ := hV ty B i hnode
      cases rest with
      | nil =>
        exfalso
        have hB : B = entry := (backPath_nil g B entry).mp hp
        subst hB
        rw [hentry] at hpred
        cases hpred
      | cons Q rest2 =>
        obtain ⟨hQ, hp2⟩ := (backPath_cons g B Q rest2 entry).mp hp
        rw [hpred] at hQ
        have hQP : Q = P := by simpa using hQ
        subst hQP
        have hd : Dominates g entry B' Q := by
          apply hdom Q op hop ty' B' i'
          rw [hx]
          exact hnode'
        obtain ⟨rest', hlen', hp'⟩ := backPath_truncate g entry B' rest2 Q hp2 (hd rest2 hp2)
        refine ⟨rest', ?_, hp'⟩
        simp only [List.length_cons] at hlen
        omega

theorem loopGraph_connected : ConnectedCFG loopGraph 0 2 := by
  refine ⟨by decide, rfl, ?_, ?_⟩
  · intro B hB
    have : B = 0 ∨ B = 1 := by omega
    rcases this with rfl | rfl
    · exact ⟨[], by decide⟩
    · exact ⟨[0], by decide⟩
  · intro v ty B i h
    simp only [loopGraph] at h
    split_ifs at h
    all_goals
      cases h
      decide

theorem ssaGraph_connected : ConnectedCFG ssaGraph 0 3 := by
  refine ⟨by decide, rfl, ?_, ?_⟩
  · intro B hB
    have : B = 0 ∨ B = 1 ∨ B = 2 := by omega
    rcases this with rfl | rfl | rfl
    · exact ⟨[], by decide⟩
    · exact ⟨[0], by decide⟩
    · exact ⟨[1, 0], by decide⟩
  · intro v ty B i h
    simp only [ssaGraph] at h
    split_ifs at h
    all_goals
      cases h
      decide

theorem ssaGraph_argsDominate : ArgsDominate ssaGraph 0 := by
  intro P op hop ty B i hnode
  by_cases h0 : P = 0
  · subst h0
    have hop' : op = 0 := by simpa [getTerminator, ssaGraph, termArgs] using hop
    subst hop'
    have hB : B = 0 := by
      have h : ssaGraph.node (ssaGraph.get 0) = .argument 7 0 0 := by decide
      rw [h] at hnode
      cases hnode
      rfl
    subst hB
    exact dominates_refl ssaGraph _ _
  · by_cases h1 : P = 1
    · subst h1
      have hop' : op = 1 ∨ op = 2 := by simpa [getTerminator, ssaGraph, termArgs] using hop
      rcases hop' with rfl | rfl
      · have hB : B = 1 := by
          have h : ssaGraph.node (ssaGraph.get 1) = .argument 7 1 0 := by decide
          rw [h] at hnode
          cases hnode
          rfl
        subst hB
        exact dominates_refl ssaGraph _ _
      · have hB : B = 0 := by
          have h : ssaGraph.node (ssaGraph.get 2) = .argument 7 0 0 := by decide
          rw [h] at hnode
          cases hnode
          rfl
        subst hB
        exact dominates_entry ssaGraph 0 1
    · exfalso
      have hterm : termArgs (getTerminator ssaGraph P) = [] := by
        simp only [getTerminator, ssaGraph, if_neg h0, if_neg h1]
        split_ifs <;> rfl
      rw [hterm] at hop
      cases hop

/-- Counterexample to C15 as stated: the control-flow graph of `loopGraph` is
connected with the unique entry block 0 (no predecessors; block 1 is reached
over the `br` of block 0), yet the `br` passes the argument of its own
destination, so `stripSinglePredecessorArgs` on that argument (value 10) comes
back to value 10 in every round and exhausts every budget. -/
theorem strip_termination_counterexample :
    ConnectedCFG loopGraph 0 2 ∧
    getTerminator loopGraph 0 = .BranchInst 1 [0] ∧
    (loopGraph.block 1).preds = [0] ∧
    loopGraph.node 10 = .argument 7 1 0 ∧
    argStep loopGraph 10 = .again 10 ∧
    (∀ n, stripSinglePredecessorArgs loopGraph n 10 = .timeout) := by
  refine ⟨loopGraph_connected, rfl, rfl, rfl, by decide, ?_⟩
  intro n
  induction n with
  | zero => rfl
  | succ n ih =>
    have h : argStep loopGraph 10 = .again 10 := by decide
    rw [strip_succ, h]
    exact ih

/-- C15, amended. Termination of block-argument resolution: in every
control-flow graph that is connected with a unique entry block (every block
reachable from one entry block that has no predecessors) and in which every
block argument passed by a terminator belongs to a block that dominates the
block of that terminator (definitions dominate uses),
`stripSinglePredecessorArgs` terminates on every value: some budget is enough,
and every larger budget gives the same outcome. -/
theorem strip_terminates (g : Graph) (entry : BlockId) (numBlocks : Nat)
    (hcfg : ConnectedCFG g entry numBlocks) (hdom : ArgsDominate g entry) (v : SILValue) :
    ∃ fuel, stripSinglePredecessorArgs g fuel v ≠ .timeout ∧
      ∀ n, fuel ≤ n →
        stripSinglePredecessorArgs g n v = stripSinglePredecessorArgs g fuel v := by
  have hk : ∃ k, ∀ ty B i, g.node v = .argument ty B i →
      ∃ rest, rest.length ≤ k ∧ backPath g B rest entry = true := by
    cases hn : g.node v with
    | instruction k ty p ops =>
      exact ⟨0, fun _ _ _ h => by cases h⟩
    | other k ty =>
      exact ⟨0, fun _ _ _ h => by cases h⟩
    | argument ty B i =>
      obtain ⟨rest, hp⟩ := hcfg.reachable B (hcfg.args_in v ty B i hn)
      refine ⟨rest.length, ?_⟩
      intro ty' B' i' h
      cases h
      exact ⟨rest, Nat.le_refl _, hp⟩
  obtain ⟨k, hk⟩ := hk
  have hne := strip_terminates_within g entry hcfg.entry_no_pred hdom k v hk
  exact ⟨k + 1, hne, fun n hn => strip_stable g (k + 1) v hne n hn⟩

/-- Witness for C15 on `ssaGraph`: the argument 12 of block 2 is resolved over
block 1 to the argument 10 of the entry block. -/
theorem strip_terminates_witness :
    ConnectedCFG ssaGraph 0 3 ∧ ArgsDominate ssaGraph 0 ∧
    stripSinglePredecessorArgs ssaGraph 3 12 = .ok 10 ∧
    (∃ fuel, stripSinglePredecessorArgs ssaGraph fuel 12 ≠ .timeout ∧
      ∀ n, fuel ≤ n →
        stripSinglePredecessorArgs ssaGraph n 12 =
          stripSinglePredecessorArgs ssaGraph fuel 12) :=
  ⟨ssaGraph_connected, ssaGraph_argsDominate, by decide,
    strip_terminates ssaGraph 0 3 ssaGraph_connected ssaGraph_argsDominate 12⟩

end SIL
